import Mathlib

/-!
Verification of the `sentryext.py` Sphinx extension (getsentry/sentry-doc-support).

This file gives a shallow embedding of the parts of `sentryext.py` that the
claims concern, and proves (or refutes) each claim against it.

Modelling conventions:
  * Python strings are `List Char`; lines carry no trailing newline.
  * Python dicts and sets are association lists / lists; `alookup` models
    `dict.get` / `dict.__getitem__` (dict keys are unique in the source, so
    first-match lookup is faithful).
  * Fallible code (`IOError`, `AttributeError`) is `Except Unit`.
  * Host-framework library calls that the source merely invokes
    (`os.path.*` on an abstract filesystem, `urljoin`/`posixpath.join`,
    the superclass `write_doc`, doctree rendering for wizard sections) are
    parameters of the embedded functions, so theorems quantify over them.
-/

deriving instance DecidableEq for Except

/-- Association-list lookup, modelling Python dict lookup (`d.get(k)` /
`d[k]`). -/
def alookup {α β : Type} [DecidableEq α] : List (α × β) → α → Option β
  | [], _ => none
  | p :: rest, a => if p.1 = a then some p.2 else alookup rest a

/-! ## `is_referenced` (sentryext.py lines 646-661) and `write_doc` (683-692) -/

/-- `references.get(docname) or ()` from `is_referenced`: the set of documents
whose toctree references `d` (sets modelled as lists). -/
def getRefs (references : List (String × List String)) (d : String) : List String :=
  (alookup references d).getD []

/-- One `to_process.add(backlink)` guarded by `if backlink in seen: continue`
(`seen` here is the already-updated seen set). Set insertion on a list keeps
it duplicate-free. -/
def addNew (seen : List String) (acc : List String) (b : String) : List String :=
  if b ∈ seen then acc else if b ∈ acc then acc else acc ++ [b]

/-- The `while to_process:` loop of `is_referenced`.  Python pops an arbitrary
set element; we fix the order by popping the head of the worklist (the loop's
result is order-independent).  `fuel` bounds the iteration count; the wrapper
`is_referenced` supplies enough fuel for the loop to run to completion. -/
def isRefGo (references : List (String × List String)) :
    Nat → List String → List String → Bool
  | 0, _, _ => false
  | Nat.succ fuel, seen, tp =>
    match tp with
    | [] => false
    | next :: rest =>
      if "index" ∈ next :: rest then true
      else
        isRefGo references fuel (next :: seen)
          ((getRefs references next).foldl (addNew (next :: seen)) rest)

/-- Total number of backlinks stored in the reference map. -/
def refsSizeS (references : List (String × List String)) : Nat :=
  references.foldr (fun p n => p.2.length + n) 0

/-- Every document name mentioned by the reference map, plus `docname`:
a finite universe containing everything the worklist can ever hold. -/
def refsCandidates (docname : String) (references : List (String × List String)) :
    List String :=
  docname :: references.foldr (fun p acc => p.1 :: (p.2 ++ acc)) []

/-- `is_referenced(docname, references)` (sentryext.py lines 646-661):
`seen = set([docname])`, `to_process = set(references.get(docname) or ())`,
then the worklist loop.  The fuel bound strictly dominates the loop's
iteration count (proved in the lemmas below). -/
def is_referenced (docname : String) (references : List (String × List String)) : Bool :=
  if docname = "index" then true
  else
    let tp0 := (getRefs references docname).dedup
    isRefGo references
      (tp0.length + (refsSizeS references + 1) * ((refsCandidates docname references).length + 1) + 1)
      [docname] tp0

/-- The builder's `docsettings`, restricted to the fields `write_doc` and the
wizard builder touch. -/
structure DocSettings where
  field_name_limit : Int
  initial_header_level : Int

/-- `SphinxBuilderMixin.write_doc` (sentryext.py lines 683-692).
`superWrite` is the host superclass `write_doc` call: it may mutate the
settings and may raise (`Except.error`).  Result component 2 is `some r` when
the superclass write was invoked (with outcome `r`) and `none` when the
document was skipped as unreferenced; component 1 is the settings state after
the `try`/`finally`, which restores `field_name_limit` on every path. -/
def write_doc (superWrite : DocSettings → DocSettings × Except Unit Unit)
    (docname : String) (references : List (String × List String))
    (st : DocSettings) : DocSettings × Option (Except Unit Unit) :=
  let original := st.field_name_limit
  let st1 := DocSettings.mk 120 st.initial_header_level
  let step :=
    if is_referenced docname references then
      let r := superWrite st1
      (r.1, some r.2)
    else (st1, none)
  (DocSettings.mk original step.1.initial_header_level, step.2)

/-! ## `purge_info` (sentryext.py lines 633-643) -/

/-- `purge_info(app, env, docname)` on `env.sentry_referenced_docs`:
`docs.discard(docname)` on every set, then pop the keys whose set is empty. -/
def purge_info (rd : List (String × List String)) (docname : String) :
    List (String × List String) :=
  (rd.map (fun p => (p.1, p.2.filter (fun d => decide (d ≠ docname))))).filter
    (fun p => decide (p.2 ≠ []))

/-! ## Sitemap (sentryext.py lines 848-881) -/

/-- `str.rstrip('/')`. -/
def rstripSlashes (cs : List Char) : List Char :=
  (cs.reverse.dropWhile (fun c => c = '/')).reverse

/-- `collect_sitemap_link`: `app.sitemap_links.append(pagename + ".html")`. -/
def collect_sitemap_link (links : List (List Char)) (pagename : List Char) :
    List (List Char) :=
  links ++ [pagename ++ ".html".toList]

/-- `build_sitemap(app, exception)` (sentryext.py lines 855-881), abstracted
over the file write: `some locs` means sitemap.xml is written at the output
root with one `<url><loc>` text per element, `none` means the function
returned without writing.  `base_url` is
`app.config['html_theme_options'].get('base_url', '')` with the option
modelled as `Option`; truthiness of the resulting string is emptiness. -/
def build_sitemap (exception : Option Unit) (base_url : Option (List Char))
    (links : List (List Char)) : Option (List (List Char)) :=
  match exception with
  | some _ => none
  | none =>
    let base := base_url.getD []
    if base = [] then none
    else if links = [] then none
    else some (links.map (fun link => rstripSlashes base ++ '/' :: link))

/-! ## `find_config` (sentryext.py lines 62-74)

Directories are abstract absolute paths: lists of components, so
`os.path.dirname` is `List.dropLast` (with the filesystem root `[]` its own
dirname) and `os.path.samefile` is path equality.  `fs p` is the parsed JSON
content of `p + '/sentry-doc-config.json'` when that file exists
(`os.path.isfile` + `json.load`), else `none`. -/

/-- The `while 1:` loop of `find_config` for non-`None` arguments: break on
`samefile(path, root)` (checked before the file test), return the parsed
config if the directory holds one, break when `dirname` reaches a fixpoint.
Each iteration either breaks or strictly shortens `path`, so
`path.length + 1` units of fuel make the fuel bound unreachable. -/
def findConfigGo {σ α : Type} [DecidableEq σ] (fs : List σ → Option α)
    (root : List σ) : Nat → List σ → Option α
  | 0, _ => none
  | Nat.succ fuel, path =>
    if path = root then none
    else
      match fs path with
      | some c => some c
      | none =>
        if path.dropLast = path then none
        else findConfigGo fs root fuel path.dropLast

def findConfigLoop {σ α : Type} [DecidableEq σ] (fs : List σ → Option α)
    (root : List σ) (path : List σ) : Option α :=
  findConfigGo fs root (path.length + 1) path

/-- `find_config(path, root)` (sentryext.py lines 62-74), including the
`path is None or root is None` breaks. -/
def find_config {σ α : Type} [DecidableEq σ] (fs : List σ → Option α) :
    Option (List σ) → Option (List σ) → Option α
  | none, _ => none
  | some _, none => none
  | some path, some root => findConfigLoop fs root path

/-- The sequence of directories `find_config` examines with `fs`: `path`,
`dirname(path)`, ... stopping (exclusively) at `root` or at the dirname
fixpoint.  Defined to state which directories the search covers. -/
def visitedDirsGo {σ : Type} [DecidableEq σ] (root : List σ) :
    Nat → List σ → List (List σ)
  | 0, _ => []
  | Nat.succ fuel, path =>
    if path = root then []
    else
      path :: (if path.dropLast = path then [] else visitedDirsGo root fuel path.dropLast)

def visitedDirs {σ : Type} [DecidableEq σ] (root path : List σ) : List (List σ) :=
  visitedDirsGo root (path.length + 1) path

/-! ## Platform processing (sentryext.py lines 758-803) -/

/-- One entry of a sidecar config's `platforms` mapping. `wizard` is a
required key (`platform_data['wizard']`); the others go through `.get`. -/
structure PlatformData where
  wizard : List (List Char)
  name : Option (List Char)
  ptype : Option (List Char)
  doc_link : Option (List Char)
deriving DecidableEq

/-- A parsed `sentry-doc-config.json`.  Only the keys the claims touch. -/
structure Config where
  vars : Option (List (List Char × List Char))
  support_level : Option (List Char)
  platforms : Option (List (List Char × PlatformData))
deriving DecidableEq

/-- The value produced for `rv[uid]` by `__process_platform`. -/
structure Entry where
  name : List Char
  ptype : List Char
  doc_link : Option (List Char)
  support_level : Option (List Char)
  body : List Char
deriving DecidableEq

/-- Python `x or default` on an optional string (`None` and `''` are falsy). -/
def orDefault (v : Option (List Char)) (d : List Char) : List Char :=
  match v with
  | none => d
  | some s => if s = [] then d else s

/-- `str.title()` (ASCII): uppercase a cased character that follows a
non-alphabetic character, lowercase one that follows an alphabetic one. -/
def pyTitleAux : List Char → Bool → List Char
  | [], _ => []
  | c :: cs, prevAlpha =>
    (if prevAlpha then c.toLower else c.toUpper) :: pyTitleAux cs c.isAlpha

def pyTitle (cs : List Char) : List Char := pyTitleAux cs false

/-- The body of the `for uid, platform_data in data.get('platforms', {})`
loop of `__process_platform` (lines 758-781) for one platform: `none` when
`__build_wizard_section` raised `IOError` (the platform is logged and
skipped), `some entry` otherwise.  `build` is `__build_wizard_section`
(host doctree rendering, may raise IOError), `joinDocLink` is
`urljoin(EXTERNAL_DOCS_URL, posixpath.join(base_path, .))`. -/
def process_platform_entry (build : List Char → List (List Char) → Except Unit (List Char))
    (joinDocLink : List Char → List Char → List Char)
    (support_level : Option (List Char)) (base_path : List Char)
    (uid : List Char) (pd : PlatformData) : Option Entry :=
  match build base_path pd.wizard with
  | Except.error _ => none
  | Except.ok body =>
    some (Entry.mk (orDefault pd.name (pyTitle uid))
      (orDefault pd.ptype "generic".toList)
      (pd.doc_link.map (joinDocLink base_path))
      support_level body)

/-- `SphinxBuilderMixin.__process_platform(data, base_path)`:
`data.get('platforms', {})` iterated, failing platforms skipped. -/
def process_platform (build : List Char → List (List Char) → Except Unit (List Char))
    (joinDocLink : List Char → List Char → List Char)
    (data : Config) (base_path : List Char) : List (List Char × Entry) :=
  (data.platforms.getD []).filterMap
    (fun p => (process_platform_entry build joinDocLink data.support_level base_path p.1 p.2).map
      (fun e => (p.1, e)))

/-- One value of the `_index.json` tree. -/
structure IndexEntry where
  details : List Char
  name : List Char
  ptype : List Char
  doc_link : Option (List Char)
deriving DecidableEq

/-- `uid.split('.', 1)` when a dot is present. -/
def splitDot1 (uid : List Char) : Option (List Char × List Char) :=
  if '.' ∈ uid then
    some (uid.takeWhile (fun c => decide (c ≠ '.')),
          (uid.dropWhile (fun c => decide (c ≠ '.'))).tail)
  else none

/-- Python dict assignment `m[k] = v` on an association list: update in place
when the key exists, append otherwise. -/
def setAssoc {α β : Type} [DecidableEq α] (m : List (α × β)) (k : α) (v : β) :
    List (α × β) :=
  if (alookup m k).isSome then m.map (fun p => if p.1 = k then (k, v) else p)
  else m ++ [(k, v)]

/-- The record stored in the platform index for `uid`:
`details = uid.replace('.', '/') + '.json'` plus fields of the processed
platform entry. -/
def mkIndexEntry (uid : List Char) (e : Entry) : IndexEntry :=
  IndexEntry.mk ((uid.map (fun c => if c = '.' then '/' else c)) ++ ".json".toList)
    e.name e.ptype e.doc_link

/-- One iteration of the `for uid, platform_data in platforms.iteritems()`
loop of `__process_platform_index`: split the uid at its first dot; skip
(with a log line) a dotted uid whose base platform is missing from
`platforms`; otherwise `tree.setdefault(base, {})[local_name] = {...}`
(a dotless uid is indexed under itself with local name `_self`). -/
def indexStep (platforms : List (List Char × Entry))
    (tree : List (List Char × List (List Char × IndexEntry)))
    (p : List Char × Entry) : List (List Char × List (List Char × IndexEntry)) :=
  match splitDot1 p.1 with
  | some bl =>
    if (alookup platforms bl.1).isSome then
      setAssoc tree bl.1
        (setAssoc ((alookup tree bl.1).getD []) bl.2 (mkIndexEntry p.1 p.2))
    else tree
  | none =>
    setAssoc tree p.1
      (setAssoc ((alookup tree p.1).getD []) "_self".toList (mkIndexEntry p.1 p.2))

/-- `SphinxBuilderMixin.__process_platform_index(platforms)` (lines 783-803). -/
def process_platform_index (platforms : List (List Char × Entry)) :
    List (List Char × List (List Char × IndexEntry)) :=
  platforms.foldl (indexStep platforms) []

/-! ## `activate` (sentryext.py lines 907-919) -/

/-- The variant-selection line of `activate`:
`globs.setdefault('sentry_doc_variant', os.environ.get('SENTRY_DOC_VARIANT', 'self'))`.
`envVariant` is the environment variable's value when set. -/
def activate (globs : List (List Char × List Char)) (envVariant : Option (List Char)) :
    List (List Char × List Char) :=
  match alookup globs "sentry_doc_variant".toList with
  | some _ => globs
  | none => globs ++ [("sentry_doc_variant".toList, envVariant.getD "self".toList)]

/-! ## `preprocess_source` (sentryext.py lines 546-605)

String helpers model the Python 2 `str` methods used there. -/

/-- Python `\s` / `str.isspace` characters for `str` (lines never contain the
newline ones, but the predicate is the full set). -/
def isWS (c : Char) : Bool :=
  c = ' ' || c = '\t' || c = '\n' || c = '\r' || c = '\x0b' || c = '\x0c'

/-- `str.expandtabs()` with tab size 8, tracking the current column. -/
def expandtabsAux : List Char → Nat → List Char
  | [], _ => []
  | c :: cs, col =>
    if c = '\t' then
      List.replicate (8 - col % 8) ' ' ++ expandtabsAux cs (col + (8 - col % 8))
    else c :: expandtabsAux cs (col + 1)

def expandtabs (cs : List Char) : List Char := expandtabsAux cs 0

/-- Length of the leading whitespace run: `len(s) - len(s.lstrip())`. -/
def wsPrefixLen (cs : List Char) : Nat := (cs.takeWhile isWS).length

/-- `str.strip()`. -/
def pyStrip (cs : List Char) : List Char :=
  ((cs.dropWhile isWS).reverse.dropWhile isWS).reverse

/-- The indentation `_find_block` computes for a non-blank line:
`len(expanded_line) - len(expanded_line.lstrip())`. -/
def lineIndent (cs : List Char) : Nat := wsPrefixLen (expandtabs cs)

/-- `str.split(sep)` for a single-character separator (every occurrence
splits; empty pieces are kept). -/
def splitChar (sep : Char) : List Char → List (List Char)
  | [] => [[]]
  | c :: cs =>
    let r := splitChar sep cs
    if c = sep then [] :: r
    else
      match r with
      | [] => [[c]]
      | h :: t => (c :: h) :: t

/-- `str.splitlines()` restricted to `'\n'` separators (the only line breaks
the build feeds through this path). -/
def splitlines (cs : List Char) : List (List Char) :=
  if cs = [] then []
  else
    let ps := splitChar '\n' cs
    if cs.getLast? = some '\n' then ps.dropLast else ps

/-- `u'\n'.join(lines)`. -/
def joinLines : List (List Char) → List Char
  | [] => []
  | [l] => l
  | l :: rest => l ++ '\n' :: joinLines rest

/-- `[a-zA-Z0-9_]`, the name class of `_var_re`. -/
def isNameChar (c : Char) : Bool := c.isAlphanum || c = '_'

/-- A match of `_var_re = ###([a-zA-Z0-9_]+)###` anchored at the start of
`cs`: the captured name.  (The name class excludes `#`, so Python's greedy
matching admits exactly the maximal name run.) -/
def varStep (cs : List Char) : Option (List Char) :=
  match cs with
  | '#' :: '#' :: '#' :: rest =>
    let name := rest.takeWhile isNameChar
    if name.isEmpty then none
    else
      match rest.drop name.length with
      | '#' :: '#' :: '#' :: _ => some name
      | _ => none
  | _ => none

/-- `_var_re.sub(_handle_match, line)` with `_handle_match` abstracted to
`getVar` (which models `(cfg.get('vars') or {}).get(key) or u''`; it raises —
`Except.error` — when `cfg` is `None`, since `None.get` is an
`AttributeError`).  `re.sub` scans left to right and resumes after each
match, i.e. skips the `3 + len(name) + 3` matched characters. -/
def subVarsGo (getVar : List Char → Except Unit (List Char)) :
    Nat → List Char → Except Unit (List Char)
  | _, [] => Except.ok []
  | 0, c :: rest => Except.ok (c :: rest)
  | Nat.succ fuel, c :: rest =>
    match varStep (c :: rest) with
    | some name =>
      match getVar name with
      | Except.error e => Except.error e
      | Except.ok v =>
        match subVarsGo getVar fuel ((c :: rest).drop (name.length + 6)) with
        | Except.error e => Except.error e
        | Except.ok out => Except.ok (v ++ out)
    | none =>
      match subVarsGo getVar fuel rest with
      | Except.error e => Except.error e
      | Except.ok out => Except.ok (c :: out)

def subVars (getVar : List Char → Except Unit (List Char)) (cs : List Char) :
    Except Unit (List Char) :=
  subVarsGo getVar cs.length cs

/-- `_var_re.search(line)` is a match somewhere: used to state that a line is
free of variable placeholders. -/
def hasVarL : List Char → Bool
  | [] => false
  | c :: rest => (varStep (c :: rest)).isSome || hasVarL rest

/-- `_handle_match`'s lookup `(cfg.get('vars') or {}).get(key) or u''` for a
given `cfg` (`None` when `find_config` found nothing — then `cfg.get` raises
`AttributeError`). -/
def varLookup (cfg : Option Config) (name : List Char) : Except Unit (List Char) :=
  match cfg with
  | none => Except.error ()
  | some c => Except.ok ((alookup (c.vars.getD []) name).getD [])

/-- The literal of `_edition_re` after the two wildcard characters. -/
def sentryEditionLit : List Char := "sentry:edition::".toList

/-- A match attempt of `_edition_re = ^(\s*)..\s+sentry:edition::\s*(.*?)$`
with the group-1 width fixed to `k`: `\s*` takes `k` whitespace characters,
`..` two arbitrary characters, `\s+` a maximal nonempty whitespace run (the
literal starts with a non-space, so only the maximal run can precede it),
then the literal, then `\s*` maximal, and `(.*?)$` the remainder.  Returns
(group 1, group 2). -/
def editionAttempt (cs : List Char) (k : Nat) : Option (List Char × List Char) :=
  let pre := cs.take k
  if pre.all isWS then
    match cs.drop k with
    | _ :: _ :: rest =>
      let j := (rest.takeWhile isWS).length
      if j = 0 then none
      else
        let rest2 := rest.drop j
        if sentryEditionLit.isPrefixOf rest2 then
          let rest3 := rest2.drop sentryEditionLit.length
          some (pre, rest3.drop (rest3.takeWhile isWS).length)
        else none
    | _ => none
  else none

/-- Backtracking over the greedy `(\s*)` group: widest first. -/
def editionTry (cs : List Char) : Nat → Option (List Char × List Char)
  | 0 => editionAttempt cs 0
  | Nat.succ k =>
    match editionAttempt cs (k + 1) with
    | some r => some r
    | none => editionTry cs k

/-- `_edition_re.match(line)` with its two groups. -/
def editionMatch (cs : List Char) : Option (List Char × List Char) :=
  editionTry cs (cs.takeWhile isWS).length

/-- `_docedition_re.match(line)` where
`_docedition_re = ^..\s+sentry:docedition::\s*(.*?)$` (groups unused: matched
lines are dropped). -/
def doceditionMatch (cs : List Char) : Bool :=
  match cs with
  | _ :: _ :: rest =>
    let j := (rest.takeWhile isWS).length
    decide (j ≠ 0) && "sentry:docedition::".toList.isPrefixOf (rest.drop j)
  | _ => false

/-- `set(x.strip() for x in tags.split(',') if x.strip())` as a list. -/
def parseTags (tagsStr : List Char) : List (List Char) :=
  ((splitChar ',' tagsStr).map pyStrip).filter (fun t => !t.isEmpty)

/-- `should_include = app.env.config.sentry_doc_variant in tags`
(sentryext.py line 600). -/
def shouldInclude (variant : List Char) (tagsStr : List Char) : Bool :=
  decide (variant ∈ parseTags tagsStr)

/-- `_find_block(indent, lineno)` (sentryext.py lines 550-574) before its
return-value post-processing, rewritten to consume the line list that starts
at `lineno` (the loop only moves `lineno` forward).  Returns
(`rv` before dedenting, `actual_indent`, number of lines consumed). -/
def findBlock (block_indent : Nat) : List (List Char) →
    List (List Char) × Option Nat × Nat
  | [] => ([], none, 0)
  | line :: rest =>
    if (pyStrip line).isEmpty then
      let r := findBlock block_indent rest
      ([] :: r.1, r.2.1, r.2.2 + 1)
    else
      let ind := lineIndent line
      if block_indent < ind then
        let r := findBlock block_indent rest
        (line :: r.1,
         some (match r.2.1 with | none => ind | some m => min ind m),
         r.2.2 + 1)
      else ([], none, 0)

/-- `_find_block`'s returned block: append `u''` when `rv` is nonempty, then
dedent by `actual_indent` when that is neither `None` nor `0`
(`if actual_indent:`); `x[actual_indent:]` drops characters. -/
def findBlockOut (block_indent : Nat) (ls : List (List Char)) : List (List Char) :=
  let r := findBlock block_indent ls
  if r.1.isEmpty then []
  else
    let rv2 := r.1 ++ [[]]
    match r.2.1 with
    | none => rv2
    | some n => if n = 0 then rv2 else rv2.map (fun x => x.drop n)

/-- How many lines `_find_block` consumed (the new `lineno` offset). -/
def findBlockCount (block_indent : Nat) (ls : List (List Char)) : Nat :=
  (findBlock block_indent ls).2.2

/-- The main `while lineno < end:` loop of `preprocess_source`
(sentryext.py lines 584-604), consuming the remaining lines: expand
variables, then try `_edition_re` (collect or drop the following block
according to `should_include`), then `_docedition_re` (drop the line), else
keep the line. -/
def preprocess_lines (getVar : List Char → Except Unit (List Char))
    (variant : List Char) (ls : List (List Char)) : Except Unit (List (List Char)) :=
  match ls with
  | [] => Except.ok []
  | line :: rest =>
    match subVars getVar line with
    | Except.error e => Except.error e
    | Except.ok line2 =>
      match editionMatch line2 with
      | some ig =>
        let bi := (expandtabs ig.1).length
        let k := findBlockCount bi rest
        let blk := findBlockOut bi rest
        if shouldInclude variant ig.2 then
          match preprocess_lines getVar variant (rest.drop k) with
          | Except.error e => Except.error e
          | Except.ok out => Except.ok (blk ++ out)
        else preprocess_lines getVar variant (rest.drop k)
      | none =>
        if doceditionMatch line2 then preprocess_lines getVar variant rest
        else
          match preprocess_lines getVar variant rest with
          | Except.error e => Except.error e
          | Except.ok out => Except.ok (line2 :: out)
termination_by ls.length
decreasing_by
  all_goals simp only [List.length_drop, List.length_cons]
  all_goals omega

/-- `preprocess_source(app, docname, source)` end to end:
`source[0].splitlines()`, the line loop, `u'\n'.join(result)`. -/
def preprocess_source (getVar : List Char → Except Unit (List Char))
    (variant : List Char) (source : List Char) : Except Unit (List Char) :=
  match preprocess_lines getVar variant (splitlines source) with
  | Except.error e => Except.error e
  | Except.ok outLines => Except.ok (joinLines outLines)

/-! ## Structured source texts for the edition-filtering claim

`DocItem` is the quantification domain for claim C1: a source text that is a
sequence of ordinary lines, `sentry:docedition` lines, and edition blocks
written in the canonical form the documentation uses (marker at indentation
0, body indented by four spaces).  `WFdoc` states the syntactic side
conditions under which the claim's "block" reading of the text is
unambiguous (ordinary lines do not themselves look like markers, tags are
comma- and whitespace-free, a block is terminated by a flush-left line). -/

inductive DocItem where
  | plain : List Char → DocItem
  | docedition : List Char → DocItem
  | edition : List (List Char) → List (List Char) → DocItem

/-- `', '.join(tags)`. -/
def tagsJoin : List (List Char) → List Char
  | [] => []
  | [t] => t
  | t :: rest => t ++ ',' :: ' ' :: tagsJoin rest

/-- The marker line introducing an edition block. -/
def markerLine (tags : List (List Char)) : List Char :=
  ".. sentry:edition:: ".toList ++ tagsJoin tags

/-- A body line of an edition block, indented by four spaces (blank lines
stay empty). -/
def renderBodyLine (l : List Char) : List Char :=
  if l.isEmpty then [] else ' ' :: ' ' :: ' ' :: ' ' :: l

def renderItem : DocItem → List (List Char)
  | DocItem.plain l => [l]
  | DocItem.docedition l => [l]
  | DocItem.edition tags body => markerLine tags :: body.map renderBodyLine

def renderDoc : List DocItem → List (List Char)
  | [] => []
  | i :: rest => renderItem i ++ renderDoc rest

/-- A tag that round-trips through `', '.join` / `split(',')` / `strip`. -/
def tagOK (t : List Char) : Bool :=
  !t.isEmpty && t.all (fun c => !isWS c && !(c = ',') && !(c = '#'))

/-- A body line: blank, or starting with a non-whitespace character (so the
dedent width of the rendered block is exactly four). -/
def bodyLineOK : List Char → Bool
  | [] => true
  | c :: _ => !isWS c

/-- An item whose first rendered line terminates a preceding block scan:
non-blank with indentation 0. -/
def startsBreaking : DocItem → Bool
  | DocItem.plain [] => false
  | DocItem.plain (c :: _) => !isWS c
  | DocItem.docedition _ => true
  | DocItem.edition _ _ => true

def WFitem : DocItem → Bool
  | DocItem.plain l => (editionMatch l).isNone && !doceditionMatch l && !hasVarL l
  | DocItem.docedition l =>
    doceditionMatch l && (editionMatch l).isNone && !hasVarL l &&
    (match l with | [] => false | c :: _ => !isWS c)
  | DocItem.edition tags body => tags.all tagOK && body.all bodyLineOK

def WFdoc : List DocItem → Bool
  | [] => true
  | x :: rest =>
    WFitem x &&
    (match x, rest with
     | DocItem.edition _ _, y :: _ => startsBreaking y
     | _, _ => true) &&
    WFdoc rest

/-- What claim C1 asserts the preprocessed output is: ordinary lines kept,
`sentry:docedition` lines dropped, an edition block's content present exactly
when the variant is among its tags (the code also emits the block's trailing
separator line). -/
def expectedOut (variant : List Char) : List DocItem → List (List Char)
  | [] => []
  | DocItem.plain l :: rest => l :: expectedOut variant rest
  | DocItem.docedition _ :: rest => expectedOut variant rest
  | DocItem.edition tags body :: rest =>
    (if variant ∈ tags then (if body.isEmpty then [] else body ++ [[]]) else []) ++
      expectedOut variant rest

/-- Membership chains of `is_referenced`'s claim: `RefChain refs a b` holds
when `a = b` or there is a finite chain `a, d1, ..., dn = b` with each next
element a member of the reference set of the previous one. -/
inductive RefChain (references : List (String × List String)) : String → String → Prop
  | refl (a : String) : RefChain references a a
  | step (a b c : String) (hb : b ∈ getRefs references a)
      (h : RefChain references b c) : RefChain references a c

/-- An item (or end of input) whose first rendered line terminates
`_find_block`'s scan: non-blank and flush left. -/
def breakingLine : List Char → Bool
  | [] => false
  | c :: _ => !isWS c

def breakFirst : List (List Char) → Bool
  | [] => true
  | l :: _ => breakingLine l

/-- The termination measure of the worklist loop: worklist length plus a
weighted count of the candidate universe not yet seen. -/
def refMeasure (cands : List String) (S : Nat) (seen tp : List String) : Nat :=
  tp.length + (S + 1) * ((cands.filter (fun x => decide (x ∉ seen))).length)

/-- A concrete structured source text for the C1 witness. -/
def c1WitnessDoc : List DocItem :=
  [DocItem.plain "Intro line.".toList,
   DocItem.docedition ".. sentry:docedition:: hosted".toList,
   DocItem.edition ["hosted".toList, "on-premise".toList] ["pip install sentry".toList],
   DocItem.plain "Tail line.".toList]

/-! ## General lemmas about the association-list operations -/

theorem alookup_append {α β : Type} [DecidableEq α] (l1 l2 : List (α × β)) (k : α) :
    alookup (l1 ++ l2) k =
      (match alookup l1 k with | some v => some v | none => alookup l2 k) := by
  induction l1 with
  | nil => simp [alookup]
  | cons p rest ih =>
    by_cases hp : p.1 = k <;> simp [alookup, hp, ih]

theorem alookup_eq_none_of_not_mem_keys {α β : Type} [DecidableEq α]
    (l : List (α × β)) (k : α) (h : k ∉ l.map Prod.fst) : alookup l k = none := by
  induction l with
  | nil => rfl
  | cons p rest ih =>
    simp only [List.map_cons, List.mem_cons] at h
    push_neg at h
    have hne : ¬ p.1 = k := fun e => h.1 e.symm
    simp [alookup, hne, ih h.2]

theorem alookup_isSome_of_mem {α β : Type} [DecidableEq α]
    {l : List (α × β)} {k : α} {v : β} (h : (k, v) ∈ l) : (alookup l k).isSome := by
  induction l with
  | nil => simp at h
  | cons p rest ih =>
    rcases List.mem_cons.mp h with he | ht
    · simp [alookup, he.symm]
    · by_cases hp : p.1 = k <;> simp [alookup, hp, ih ht]

theorem alookup_map_update {α β : Type} [DecidableEq α] (m : List (α × β)) (k : α) (v : β) :
    alookup (m.map (fun p => if p.1 = k then (k, v) else p)) k =
      if (alookup m k).isSome then some v else none := by
  induction m with
  | nil => simp [alookup]
  | cons p rest ih =>
    by_cases hp : p.1 = k <;> simp [alookup, hp, ih]

theorem alookup_map_update_other {α β : Type} [DecidableEq α] (m : List (α × β))
    (k k2 : α) (v : β) (hne : k ≠ k2) :
    alookup (m.map (fun p => if p.1 = k then (k, v) else p)) k2 = alookup m k2 := by
  induction m with
  | nil => rfl
  | cons p rest ih =>
    simp only [List.map_cons, alookup]
    by_cases hp : p.1 = k
    · have h2 : ¬ (k, v).1 = k2 := by simpa using hne
      have h3 : ¬ p.1 = k2 := by rw [hp]; exact hne
      rw [if_pos hp, if_neg h2, if_neg h3, ih]
    · rw [if_neg hp]
      by_cases hq : p.1 = k2
      · rw [if_pos hq, if_pos hq]
      · rw [if_neg hq, if_neg hq, ih]

theorem alookup_setAssoc_self {α β : Type} [DecidableEq α] (m : List (α × β)) (k : α) (v : β) :
    alookup (setAssoc m k v) k = some v := by
  unfold setAssoc
  cases he : alookup m k with
  | some v0 => simp [he, alookup_map_update]
  | none =>
    simp only [he, Option.isSome_none, Bool.false_eq_true, if_false]
    rw [alookup_append]
    simp [he, alookup]

theorem alookup_setAssoc_other {α β : Type} [DecidableEq α] (m : List (α × β))
    (k k2 : α) (v : β) (hne : k ≠ k2) :
    alookup (setAssoc m k v) k2 = alookup m k2 := by
  unfold setAssoc
  cases he : alookup m k with
  | some v0 => simp [he, alookup_map_update_other _ _ _ _ hne]
  | none =>
    simp only [he, Option.isSome_none, Bool.false_eq_true, if_false]
    rw [alookup_append]
    cases he2 : alookup m k2
    · simp [alookup, hne]
    · simp

/-! ## Claim C10: the `purge_info` invariant -/

/-- C10: after `purge_info(app, env, docname)`, `docname` is a member of no
reference set in `sentry_referenced_docs`, every remaining set is non-empty,
and a key survives with set `s` exactly when it was present before with a set
whose content minus `docname` is the non-empty `s` (so keys whose set became
empty are removed and all other sets change only by the discard). -/
theorem c10_purge_info_invariant (rd : List (String × List String)) (docname : String) :
    (∀ k s, (k, s) ∈ purge_info rd docname → docname ∉ s ∧ s ≠ []) ∧
    (∀ k s, (k, s) ∈ purge_info rd docname ↔
      ∃ s0, (k, s0) ∈ rd ∧ s = s0.filter (fun d => decide (d ≠ docname)) ∧ s ≠ []) := by
  have hmem : ∀ k s, (k, s) ∈ purge_info rd docname ↔
      ∃ s0, (k, s0) ∈ rd ∧ s = s0.filter (fun d => decide (d ≠ docname)) ∧ s ≠ [] := by
    intro k s
    unfold purge_info
    rw [List.mem_filter]
    constructor
    · rintro ⟨hm, hne⟩
      rcases List.mem_map.mp hm with ⟨⟨k0, s0⟩, hp, he⟩
      cases he
      exact ⟨s0, hp, rfl, by simpa using hne⟩
    · rintro ⟨s0, hm, hs, hne⟩
      refine ⟨List.mem_map.mpr ⟨(k, s0), hm, by rw [hs]⟩, by simpa using hne⟩
  refine ⟨?_, hmem⟩
  intro k s hin
  rcases (hmem k s).mp hin with ⟨s0, _, hs, hne⟩
  refine ⟨?_, hne⟩
  rw [hs]
  simp

/-! ## Claim C9: `write_doc` frame property on `field_name_limit` -/

/-- C9: `write_doc` restores `field_name_limit` to its pre-call value on every
path — document written, document skipped as unreferenced, or superclass
write raised — and the superclass write, when it runs, is run with the limit
set to 120. -/
theorem c9_write_doc_restores_field_name_limit
    (superWrite : DocSettings → DocSettings × Except Unit Unit) (docname : String)
    (references : List (String × List String)) (st : DocSettings) :
    (write_doc superWrite docname references st).1.field_name_limit = st.field_name_limit ∧
    (write_doc superWrite docname references st).2 =
      (if is_referenced docname references then
        some (superWrite (DocSettings.mk 120 st.initial_header_level)).2
      else none) := by
  by_cases h : is_referenced docname references <;>
    simp [write_doc, h]

/-! ## Claim C5: sitemap generation -/

theorem foldl_collect_sitemap_link (pages : List (List Char)) :
    ∀ acc, pages.foldl collect_sitemap_link acc =
      acc ++ pages.map (fun p => p ++ ".html".toList) := by
  induction pages with
  | nil => intro acc; simp
  | cons p rest ih =>
    intro acc
    simp [collect_sitemap_link, ih]

/-- C5: `build_sitemap` writes sitemap.xml at the output root exactly when the
build ended without exception, the `base_url` theme option is present and
non-empty, and page links were collected; the written file holds one
`<url><loc>` per collected page, the location being the base URL with its
trailing slashes stripped, `'/'`, and the page name plus `.html`. -/
theorem c5_build_sitemap_characterization (exception : Option Unit)
    (base_url : Option (List Char)) (pages : List (List Char)) :
    build_sitemap exception base_url (pages.foldl collect_sitemap_link []) =
      (if exception = none ∧ base_url.getD [] ≠ [] ∧ pages ≠ []
       then some (pages.map (fun p =>
         rstripSlashes (base_url.getD []) ++ '/' :: (p ++ ".html".toList)))
       else none) := by
  rw [foldl_collect_sitemap_link]
  simp only [List.nil_append]
  cases exception with
  | some e => simp [build_sitemap]
  | none =>
    by_cases hb : base_url.getD [] = []
    · simp [build_sitemap, hb]
    · by_cases hp : pages = []
      · simp [build_sitemap, hb, hp]
      · have hl : pages.map (fun p => p ++ ".html".toList) ≠ [] := by
          simpa using hp
        simp [build_sitemap, hb, hp, hl, List.map_map]

/-! ## Claim C2: `find_config` ancestry walk -/

theorem findConfigGo_eq_findSome {σ α : Type} [DecidableEq σ] (fs : List σ → Option α)
    (root : List σ) : ∀ (fuel : Nat) (path : List σ), path.length < fuel →
    findConfigGo fs root fuel path = (visitedDirsGo root fuel path).findSome? fs := by
  intro fuel
  induction fuel with
  | zero => intro path h; omega
  | succ fuel ih =>
    intro path h
    by_cases hr : path = root
    · simp [findConfigGo, visitedDirsGo, hr]
    · simp only [findConfigGo, visitedDirsGo, hr, if_false, List.findSome?_cons]
      cases hf : fs path with
      | some c => simp
      | none =>
        by_cases hfix : path.dropLast = path
        · simp [hfix]
        · have hne : path ≠ [] := fun e => hfix (by simp [e])
          have hlen : path.dropLast.length < fuel := by
            rw [List.length_dropLast]
            have := List.length_pos.mpr hne
            omega
          simp [hfix, ih path.dropLast hlen]

theorem root_not_mem_visitedDirsGo {σ : Type} [DecidableEq σ] (root : List σ) :
    ∀ (fuel : Nat) (path : List σ), root ∉ visitedDirsGo root fuel path := by
  intro fuel
  induction fuel with
  | zero => intro path; simp [visitedDirsGo]
  | succ fuel ih =>
    intro path
    by_cases hr : path = root
    · simp [visitedDirsGo, hr]
    · simp only [visitedDirsGo, hr, if_false, List.mem_cons]
      rintro (he | ht)
      · exact hr he.symm
      · by_cases hfix : path.dropLast = path
        · simp [hfix] at ht
        · rw [if_neg hfix] at ht
          exact ih path.dropLast ht

/-- C2 counterexample: a `sentry-doc-config.json` stored in the project root
directory itself is never found.  Here the filesystem holds the config only
at the root `[]`; ascending from document directory `[5]` toward the root
reaches the root at the first step, yet `find_config` returns `None`,
because the `os.path.samefile(path, root)` break precedes the
`os.path.isfile` test.  This refutes the claim's "the search covers every
ancestor directory from the document's directory up to the project root". -/
theorem c2_counterexample :
    (fun p => if p = ([] : List Nat) then some 0 else none) [] = some 0 ∧
    find_config (fun p => if p = ([] : List Nat) then some 0 else none)
      (some [5]) (some []) = none := by
  constructor
  · rfl
  · decide

/-- C2 (amended): `find_config` returns the parsed content of the first
config file encountered on the directory chain `path`, `dirname(path)`, ...
that stops strictly before the project root (or at the filesystem root's
dirname fixpoint if the project root is never reached); the project root
itself is never examined.  `visitedDirs` is that chain and
`List.findSome?` is first-hit search. -/
theorem c2_find_config_first_on_ancestry {σ α : Type} [DecidableEq σ]
    (fs : List σ → Option α) (path root : List σ) :
    find_config fs (some path) (some root) = (visitedDirs root path).findSome? fs ∧
    root ∉ visitedDirs root path := by
  constructor
  · exact findConfigGo_eq_findSome fs root (path.length + 1) path (by omega)
  · exact root_not_mem_visitedDirsGo root (path.length + 1) path

/-! ## Claim C4: defaulting of absent configuration sections -/

/-- C4 counterexample: when no config file is found (`find_config` returned
`None`), expanding a `###name###` placeholder does not yield the empty
string — `cfg.get('vars')` on `None` raises `AttributeError`, which the
embedding renders as `Except.error`. -/
theorem c4_counterexample :
    subVars (varLookup none) "###x###".toList = Except.error () ∧
    subVars (varLookup none) "###x###".toList ≠ Except.ok [] := by
  decide

theorem subVarsGo_of_no_var (getVar : List Char → Except Unit (List Char)) :
    ∀ (fuel : Nat) (cs : List Char), hasVarL cs = false →
      subVarsGo getVar fuel cs = Except.ok cs := by
  intro fuel
  induction fuel with
  | zero => intro cs h; cases cs <;> rfl
  | succ fuel ih =>
    intro cs h
    cases cs with
    | nil => rfl
    | cons c rest =>
      simp only [hasVarL, Bool.or_eq_false_iff] at h
      have hv : varStep (c :: rest) = none := by
        cases hs : varStep (c :: rest)
        · rfl
        · simp [hs] at h
      simp [subVarsGo, hv, ih rest h.2]

/-- C4 (amended): a config file with no `vars` section expands every
placeholder to the empty string, and a sidecar config with no `platforms`
section yields an empty platform mapping; but when no config file is found
at all, only placeholder-free lines pass through — expanding a placeholder
raises (see the counterexample) instead of defaulting to empty. -/
theorem c4_absent_sections_default (c : Config) (hv : c.vars = none) :
    (∀ name, varLookup (some c) name = Except.ok []) ∧
    (∀ build joinDocLink (data : Config) base_path, data.platforms = none →
      process_platform build joinDocLink data base_path = []) ∧
    (∀ getVar line, hasVarL line = false → subVars getVar line = Except.ok line) := by
  refine ⟨?_, ?_, ?_⟩
  · intro name
    simp [varLookup, hv, alookup]
  · intro build joinDocLink data base_path hp
    simp [process_platform, hp]
  · intro getVar line h
    exact subVarsGo_of_no_var getVar line.length line h

theorem c4_absent_sections_default_witness :
    (Config.mk none none none).vars = none ∧
    varLookup (some (Config.mk none none none)) "x".toList = Except.ok [] ∧
    process_platform (fun _ _ => Except.ok []) (fun _ d => d)
      (Config.mk none none none) "sdk".toList = [] ∧
    hasVarL "plain line".toList = false ∧
    subVars (varLookup none) "plain line".toList = Except.ok "plain line".toList := by
  refine ⟨rfl, ?_, ?_, by decide, ?_⟩
  · exact (c4_absent_sections_default (Config.mk none none none) rfl).1 _
  · exact (c4_absent_sections_default (Config.mk none none none) rfl).2.1 _ _ _ _ rfl
  · exact (c4_absent_sections_default (Config.mk none none none) rfl).2.2 _ _ (by decide)

/-! ## Claim C8 counterexample: `activate` uses `setdefault` -/

/-- C8 counterexample: the claim says `activate` sets `sentry_doc_variant`
to the value of `SENTRY_DOC_VARIANT`; but `setdefault` leaves an existing
conf-file value in place, so with the variable set to `self` and the conf
globals already holding `hosted`, the configured variant stays `hosted`. -/
theorem c8_counterexample :
    activate [("sentry_doc_variant".toList, "hosted".toList)] (some "self".toList) =
      [("sentry_doc_variant".toList, "hosted".toList)] ∧
    alookup (activate [("sentry_doc_variant".toList, "hosted".toList)]
        (some "self".toList)) "sentry_doc_variant".toList ≠ some "self".toList := by
  decide

/-! ## Claim C6: a failing wizard build is logged and skipped -/

theorem alookup_filterMap_keys {α β γ : Type} [DecidableEq α] (g : α → β → Option γ) :
    ∀ (l : List (α × β)) (k : α), k ∉ l.map Prod.fst →
      alookup (l.filterMap (fun p => (g p.1 p.2).map (fun e => (p.1, e)))) k = none := by
  intro l
  induction l with
  | nil => intro k _; rfl
  | cons p rest ih =>
    intro k hk
    simp only [List.map_cons, List.mem_cons] at hk
    push_neg at hk
    rw [List.filterMap_cons]
    cases hg : g p.1 p.2 with
    | none =>
      simp only [hg, Option.map_none']
      exact ih k hk.2
    | some e =>
      simp only [hg, Option.map_some']
      have hne : ¬ p.1 = k := fun h => hk.1 h.symm
      simp [alookup, hne, ih k hk.2]

/-- C6: a platform whose wizard section build raises `IOError` is skipped —
it contributes nothing to the result mapping (its uid is absent when no other
platform shares it) — and processing of the platforms before and after it is
exactly what it would have been without the failing entry. -/
theorem c6_missing_snippet_skipped
    (build : List Char → List (List Char) → Except Unit (List Char))
    (joinDocLink : List Char → List Char → List Char)
    (vars : Option (List (List Char × List Char))) (sl : Option (List Char))
    (base_path : List Char) (pre post : List (List Char × PlatformData))
    (uid : List Char) (pd : PlatformData)
    (herr : build base_path pd.wizard = Except.error ()) :
    process_platform build joinDocLink
        (Config.mk vars sl (some (pre ++ (uid, pd) :: post))) base_path =
      process_platform build joinDocLink (Config.mk vars sl (some pre)) base_path ++
        process_platform build joinDocLink (Config.mk vars sl (some post)) base_path ∧
    (uid ∉ pre.map Prod.fst → uid ∉ post.map Prod.fst →
      alookup (process_platform build joinDocLink
        (Config.mk vars sl (some (pre ++ (uid, pd) :: post))) base_path) uid = none) := by
  have h1 : process_platform build joinDocLink
      (Config.mk vars sl (some (pre ++ (uid, pd) :: post))) base_path =
    process_platform build joinDocLink (Config.mk vars sl (some pre)) base_path ++
      process_platform build joinDocLink (Config.mk vars sl (some post)) base_path := by
    unfold process_platform
    simp only [Option.getD_some, List.filterMap_append, List.filterMap_cons]
    rw [process_platform_entry, herr]
    rfl
  refine ⟨h1, ?_⟩
  intro hpre hpost
  rw [h1, alookup_append]
  unfold process_platform
  simp only [Option.getD_some]
  rw [alookup_filterMap_keys _ pre uid hpre, alookup_filterMap_keys _ post uid hpost]

theorem c6_missing_snippet_skipped_witness :
    ((fun (_ : List Char) snips =>
        if snips = ["missing.rst".toList] then Except.error ()
        else Except.ok "BODY".toList) "sdk".toList
      (PlatformData.mk ["missing.rst".toList] none none none).wizard = Except.error ()) ∧
    process_platform
        (fun _ snips => if snips = ["missing.rst".toList] then Except.error ()
          else Except.ok "BODY".toList) (fun _ d => d)
        (Config.mk none none (some
          [("python".toList, PlatformData.mk ["ok.rst".toList] none none none),
           ("php".toList, PlatformData.mk ["missing.rst".toList] none none none),
           ("ruby".toList, PlatformData.mk ["ok2.rst".toList] none none none)]))
        "sdk".toList =
      process_platform
        (fun _ snips => if snips = ["missing.rst".toList] then Except.error ()
          else Except.ok "BODY".toList) (fun _ d => d)
        (Config.mk none none (some
          [("python".toList, PlatformData.mk ["ok.rst".toList] none none none)]))
        "sdk".toList ++
      process_platform
        (fun _ snips => if snips = ["missing.rst".toList] then Except.error ()
          else Except.ok "BODY".toList) (fun _ d => d)
        (Config.mk none none (some
          [("ruby".toList, PlatformData.mk ["ok2.rst".toList] none none none)]))
        "sdk".toList ∧
    alookup (process_platform
        (fun _ snips => if snips = ["missing.rst".toList] then Except.error ()
          else Except.ok "BODY".toList) (fun _ d => d)
        (Config.mk none none (some
          [("python".toList, PlatformData.mk ["ok.rst".toList] none none none),
           ("php".toList, PlatformData.mk ["missing.rst".toList] none none none),
           ("ruby".toList, PlatformData.mk ["ok2.rst".toList] none none none)]))
        "sdk".toList) "php".toList = none := by
  refine ⟨by decide, ?_, ?_⟩
  · exact (c6_missing_snippet_skipped _ _ _ _ _
      [("python".toList, PlatformData.mk ["ok.rst".toList] none none none)]
      [("ruby".toList, PlatformData.mk ["ok2.rst".toList] none none none)]
      "php".toList (PlatformData.mk ["missing.rst".toList] none none none)
      (by decide)).1
  · exact (c6_missing_snippet_skipped _ _ _ _ _
      [("python".toList, PlatformData.mk ["ok.rst".toList] none none none)]
      [("ruby".toList, PlatformData.mk ["ok2.rst".toList] none none none)]
      "php".toList (PlatformData.mk ["missing.rst".toList] none none none)
      (by decide)).2 (by decide) (by decide)

/-! ## Claim C7: missing platform cross-references in the index -/

theorem indexStep_lookup_none (platforms : List (List Char × Entry)) (base : List Char)
    (hb : alookup platforms base = none) :
    ∀ tree p, p ∈ platforms → alookup tree base = none →
      alookup (indexStep platforms tree p) base = none := by
  intro tree p hp ht
  unfold indexStep
  cases hs : splitDot1 p.1 with
  | none =>
    dsimp only
    have hp2 : (p.1, p.2) ∈ platforms := by simpa using hp
    have hsome : (alookup platforms p.1).isSome := alookup_isSome_of_mem hp2
    have hne : p.1 ≠ base := by
      intro e
      rw [e, hb] at hsome
      simp at hsome
    rw [alookup_setAssoc_other _ _ _ _ hne, ht]
  | some bl =>
    dsimp only
    by_cases hin : (alookup platforms bl.1).isSome
    · rw [if_pos hin]
      have hne : bl.1 ≠ base := by
        intro e
        rw [e, hb] at hin
        simp at hin
      rw [alookup_setAssoc_other _ _ _ _ hne, ht]
    · rw [if_neg hin]
      exact ht

theorem foldl_indexStep_lookup_none (platforms : List (List Char × Entry)) (base : List Char)
    (hb : alookup platforms base = none) :
    ∀ (l : List (List Char × Entry)) tree, (∀ p ∈ l, p ∈ platforms) →
      alookup tree base = none →
      alookup (l.foldl (indexStep platforms) tree) base = none := by
  intro l
  induction l with
  | nil => intro tree _ ht; exact ht
  | cons p rest ih =>
    intro tree hsub ht
    simp only [List.foldl_cons]
    exact ih _ (fun q hq => hsub q (List.mem_cons_of_mem p hq))
      (indexStep_lookup_none platforms base hb tree p (hsub p (List.mem_cons_self p rest)) ht)

theorem indexStep_preserves_entry (platforms : List (List Char × Entry))
    (b loc : List Char) :
    ∀ tree p, (∃ ls, alookup tree b = some ls ∧ (alookup ls loc).isSome = true) →
      ∃ ls, alookup (indexStep platforms tree p) b = some ls ∧
        (alookup ls loc).isSome = true := by
  intro tree p hP
  rcases hP with ⟨ls, hls, hloc⟩
  have key : ∀ (k loc2 : List Char) (v : IndexEntry),
      ∃ ls2, alookup (setAssoc tree k (setAssoc ((alookup tree k).getD []) loc2 v)) b =
          some ls2 ∧ (alookup ls2 loc).isSome = true := by
    intro k loc2 v
    by_cases hk : k = b
    · subst hk
      refine ⟨setAssoc ((alookup tree k).getD []) loc2 v, alookup_setAssoc_self _ _ _, ?_⟩
      rw [hls]
      by_cases hl : loc2 = loc
      · subst hl
        rw [Option.getD_some, alookup_setAssoc_self]
        rfl
      · rw [Option.getD_some, alookup_setAssoc_other _ _ _ _ hl]
        exact hloc
    · exact ⟨ls, by rw [alookup_setAssoc_other _ _ _ _ hk]; exact hls, hloc⟩
  unfold indexStep
  cases hs : splitDot1 p.1 with
  | none => exact key _ _ _
  | some bl =>
    dsimp only
    by_cases hin : (alookup platforms bl.1).isSome
    · rw [if_pos hin]
      exact key _ _ _
    · rw [if_neg hin]
      exact ⟨ls, hls, hloc⟩

theorem foldl_indexStep_preserves_entry (platforms : List (List Char × Entry))
    (b loc : List Char) :
    ∀ (l : List (List Char × Entry)) tree,
      (∃ ls, alookup tree b = some ls ∧ (alookup ls loc).isSome = true) →
      ∃ ls, alookup (l.foldl (indexStep platforms) tree) b = some ls ∧
        (alookup ls loc).isSome = true := by
  intro l
  induction l with
  | nil => intro tree h; exact h
  | cons p rest ih =>
    intro tree h
    simp only [List.foldl_cons]
    exact ih _ (indexStep_preserves_entry platforms b loc tree p h)

theorem indexStep_establishes_self (platforms : List (List Char × Entry))
    (tree : List (List Char × List (List Char × IndexEntry)))
    (uid : List Char) (pd : Entry) (hs : splitDot1 uid = none) :
    ∃ ls, alookup (indexStep platforms tree (uid, pd)) uid = some ls ∧
      (alookup ls "_self".toList).isSome = true := by
  unfold indexStep
  simp only [hs]
  exact ⟨setAssoc ((alookup tree uid).getD []) "_self".toList (mkIndexEntry uid pd),
    alookup_setAssoc_self _ _ _, by rw [alookup_setAssoc_self]; rfl⟩

theorem indexStep_establishes_dotted (platforms : List (List Char × Entry))
    (tree : List (List Char × List (List Char × IndexEntry)))
    (uid : List Char) (pd : Entry) (b loc : List Char)
    (hs : splitDot1 uid = some (b, loc)) (hin : (alookup platforms b).isSome = true) :
    ∃ ls, alookup (indexStep platforms tree (uid, pd)) b = some ls ∧
      (alookup ls loc).isSome = true := by
  unfold indexStep
  simp only [hs, hin, if_true]
  exact ⟨setAssoc ((alookup tree b).getD []) loc (mkIndexEntry uid pd),
    alookup_setAssoc_self _ _ _, by rw [alookup_setAssoc_self]; rfl⟩

/-- C7: in `__process_platform_index`, a dotted identifier `base.local` whose
base platform is missing from the collected mapping is logged and skipped —
the index tree has no entry under that base at all — while every other
identifier still gets its index entry: a dotted one with present base under
`(base, local)`, and a dotless one under itself with local name `_self`. -/
theorem c7_platform_index_missing_base (platforms : List (List Char × Entry)) :
    (∀ uid pd base loc, (uid, pd) ∈ platforms →
      splitDot1 uid = some (base, loc) → alookup platforms base = none →
      alookup (process_platform_index platforms) base = none) ∧
    (∀ uid pd, (uid, pd) ∈ platforms → splitDot1 uid = none →
      ∃ ls, alookup (process_platform_index platforms) uid = some ls ∧
        (alookup ls "_self".toList).isSome = true) ∧
    (∀ uid pd base loc, (uid, pd) ∈ platforms →
      splitDot1 uid = some (base, loc) → (alookup platforms base).isSome = true →
      ∃ ls, alookup (process_platform_index platforms) base = some ls ∧
        (alookup ls loc).isSome = true) := by
  refine ⟨?_, ?_, ?_⟩
  · intro uid pd base loc _ _ hb
    exact foldl_indexStep_lookup_none platforms base hb platforms [] (fun p hp => hp) rfl
  · intro uid pd hmem hs
    rcases List.append_of_mem hmem with ⟨l1, l2, hdec⟩
    subst hdec
    unfold process_platform_index
    rw [List.foldl_append, List.foldl_cons]
    exact foldl_indexStep_preserves_entry _ uid "_self".toList l2 _
      (indexStep_establishes_self _ _ uid pd hs)
  · intro uid pd base loc hmem hs hin
    rcases List.append_of_mem hmem with ⟨l1, l2, hdec⟩
    subst hdec
    unfold process_platform_index
    rw [List.foldl_append, List.foldl_cons]
    exact foldl_indexStep_preserves_entry _ base loc l2 _
      (indexStep_establishes_dotted _ _ uid pd base loc hs hin)

theorem c7_platform_index_missing_base_witness :
    (("python.django".toList,
        Entry.mk "Django".toList "framework".toList none none []) ∈
      [("python.django".toList, Entry.mk "Django".toList "framework".toList none none []),
       ("ruby".toList, Entry.mk "Ruby".toList "language".toList none none []),
       ("ruby.rails".toList, Entry.mk "Rails".toList "framework".toList none none [])] ∧
     splitDot1 "python.django".toList = some ("python".toList, "django".toList) ∧
     alookup [("python.django".toList, Entry.mk "Django".toList "framework".toList none none []),
       ("ruby".toList, Entry.mk "Ruby".toList "language".toList none none []),
       ("ruby.rails".toList, Entry.mk "Rails".toList "framework".toList none none [])]
       "python".toList = none) ∧
    alookup (process_platform_index
      [("python.django".toList, Entry.mk "Django".toList "framework".toList none none []),
       ("ruby".toList, Entry.mk "Ruby".toList "language".toList none none []),
       ("ruby.rails".toList, Entry.mk "Rails".toList "framework".toList none none [])])
      "python".toList = none ∧
    (∃ ls, alookup (process_platform_index
      [("python.django".toList, Entry.mk "Django".toList "framework".toList none none []),
       ("ruby".toList, Entry.mk "Ruby".toList "language".toList none none []),
       ("ruby.rails".toList, Entry.mk "Rails".toList "framework".toList none none [])])
      "ruby".toList = some ls ∧ (alookup ls "_self".toList).isSome = true) ∧
    (∃ ls, alookup (process_platform_index
      [("python.django".toList, Entry.mk "Django".toList "framework".toList none none []),
       ("ruby".toList, Entry.mk "Ruby".toList "language".toList none none []),
       ("ruby.rails".toList, Entry.mk "Rails".toList "framework".toList none none [])])
      "ruby".toList = some ls ∧ (alookup ls "rails".toList).isSome = true) := by
  refine ⟨⟨by decide, by decide, by decide⟩, ?_, ?_, ?_⟩
  · exact (c7_platform_index_missing_base _).1 "python.django".toList
      (Entry.mk "Django".toList "framework".toList none none [])
      "python".toList "django".toList (by decide) (by decide) (by decide)
  · exact (c7_platform_index_missing_base _).2.1 "ruby".toList
      (Entry.mk "Ruby".toList "language".toList none none []) (by decide) (by decide)
  · exact (c7_platform_index_missing_base _).2.2 "ruby.rails".toList
      (Entry.mk "Rails".toList "framework".toList none none [])
      "ruby".toList "rails".toList (by decide) (by decide) (by decide)

/-! ## String-level lemmas for the preprocessing claim -/

theorem varStep_head_ne (c : Char) (cs : List Char) (hc : c ≠ '#') :
    varStep (c :: cs) = none := by
  unfold varStep
  split
  · next rest heq =>
    injection heq with h1 _
    exact absurd h1 hc
  · rfl

theorem hasVarL_of_no_hash (cs : List Char) (h : ∀ c ∈ cs, c ≠ '#') :
    hasVarL cs = false := by
  induction cs with
  | nil => rfl
  | cons c rest ih =>
    have hc : c ≠ '#' := h c (List.mem_cons_self c rest)
    rw [hasVarL, varStep_head_ne c rest hc]
    simp only [Option.isSome_none, Bool.false_or]
    exact ih (fun d hd => h d (List.mem_cons_of_mem c hd))

theorem tagsJoin_no_hash (tags : List (List Char)) (h : tags.all tagOK = true) :
    ∀ c ∈ tagsJoin tags, c ≠ '#' := by
  induction tags with
  | nil => intro c hc; simp [tagsJoin] at hc
  | cons t rest ih =>
    have ht : tagOK t = true := by
      have := (List.all_eq_true.mp h) t (List.mem_cons_self t rest)
      exact this
    have hrest : rest.all tagOK = true := by
      rw [List.all_eq_true]
      intro u hu
      exact (List.all_eq_true.mp h) u (List.mem_cons_of_mem t hu)
    have htc : ∀ c ∈ t, c ≠ '#' := by
      intro c hc
      have := (List.all_eq_true.mp ((Bool.and_eq_true _ _).mp ht).2) c hc
      simp only [Bool.and_eq_true, Bool.not_eq_true'] at this
      intro e
      rw [e] at this
      simpa using this.2
    cases rest with
    | nil =>
      intro c hc
      exact htc c hc
    | cons t2 rest2 =>
      intro c hc
      have hexp : tagsJoin (t :: t2 :: rest2) = t ++ ',' :: ' ' :: tagsJoin (t2 :: rest2) := rfl
      rw [hexp] at hc
      rcases List.mem_append.mp hc with hm | hm
      · exact htc c hm
      · rcases List.mem_cons.mp hm with he | hm2
        · rw [he]; decide
        · rcases List.mem_cons.mp hm2 with he | hm3
          · rw [he]; decide
          · exact ih hrest c hm3

theorem markerLine_eq (tags : List (List Char)) :
    markerLine tags = '.' :: '.' :: ' ' :: (sentryEditionLit ++ ' ' :: tagsJoin tags) := by
  rfl

theorem markerLine_no_hash (tags : List (List Char)) (h : tags.all tagOK = true) :
    ∀ c ∈ markerLine tags, c ≠ '#' := by
  intro c hc
  rw [markerLine_eq] at hc
  rcases List.mem_cons.mp hc with he | hc2
  · rw [he]; decide
  · rcases List.mem_cons.mp hc2 with he | hc3
    · rw [he]; decide
    · rcases List.mem_cons.mp hc3 with he | hc4
      · rw [he]; decide
      · rcases List.mem_append.mp hc4 with hm | hm
        · revert hm
          have : ∀ d ∈ sentryEditionLit, d ≠ '#' := by decide
          exact this c
        · rcases List.mem_cons.mp hm with he | hm2
          · rw [he]; decide
          · exact tagsJoin_no_hash tags h c hm2

theorem isPrefixOf_append_self {α : Type} [BEq α] [LawfulBEq α] (l x : List α) :
    l.isPrefixOf (l ++ x) = true := by
  induction l with
  | nil => simp [List.isPrefixOf]
  | cons a l ih => simp [List.isPrefixOf, ih]

theorem tagOK_head_not_ws (t : List Char) (ht : tagOK t = true) :
    ∃ c t2, t = c :: t2 ∧ isWS c = false := by
  unfold tagOK at ht
  obtain ⟨hne, hchar⟩ := (Bool.and_eq_true _ _).mp ht
  cases t with
  | nil => simp at hne
  | cons c t2 =>
    refine ⟨c, t2, rfl, ?_⟩
    have := (List.all_eq_true.mp hchar) c (List.mem_cons_self c t2)
    simp only [Bool.and_eq_true, Bool.not_eq_true'] at this
    exact this.1.1

theorem tagsJoin_takeWhile_nil (tags : List (List Char)) (h : tags.all tagOK = true) :
    (tagsJoin tags).takeWhile isWS = [] := by
  cases tags with
  | nil => rfl
  | cons t rest =>
    have ht : tagOK t = true := (List.all_eq_true.mp h) t (List.mem_cons_self t rest)
    rcases tagOK_head_not_ws t ht with ⟨c, t2, he, hcws⟩
    subst he
    cases rest with
    | nil =>
      have hexp : tagsJoin [c :: t2] = c :: t2 := rfl
      rw [hexp]
      simp [List.takeWhile_cons, hcws]
    | cons t3 rest3 =>
      have hexp : tagsJoin ((c :: t2) :: t3 :: rest3) =
          (c :: t2) ++ ',' :: ' ' :: tagsJoin (t3 :: rest3) := rfl
      rw [hexp]
      simp [List.takeWhile_cons, hcws]

theorem editionMatch_markerLine (tags : List (List Char)) (h : tags.all tagOK = true) :
    editionMatch (markerLine tags) = some ([], tagsJoin tags) := by
  have hwdot : isWS '.' = false := by decide
  have hws : isWS ' ' = true := by decide
  have hwss : isWS 's' = false := by decide
  have htj : (tagsJoin tags).takeWhile isWS = [] := tagsJoin_takeWhile_nil tags h
  have hlit : sentryEditionLit = 's' :: "entry:edition::".toList := rfl
  rw [markerLine_eq]
  unfold editionMatch
  have h0 : (('.' :: '.' :: ' ' :: (sentryEditionLit ++ ' ' :: tagsJoin tags)).takeWhile
      isWS).length = 0 := by
    simp [List.takeWhile_cons, hwdot]
  rw [h0]
  unfold editionTry
  unfold editionAttempt
  simp only [List.take_zero, List.all_nil, List.drop_zero, if_true]
  have hj : ((' ' :: (sentryEditionLit ++ ' ' :: tagsJoin tags)).takeWhile isWS).length = 1 := by
    rw [hlit]
    simp [List.takeWhile_cons, hws, hwss]
  rw [hj]
  simp only [Nat.one_ne_zero, if_false]
  have hdrop1 : (' ' :: (sentryEditionLit ++ ' ' :: tagsJoin tags)).drop 1 =
      sentryEditionLit ++ ' ' :: tagsJoin tags := rfl
  rw [hdrop1]
  rw [isPrefixOf_append_self]
  simp only [if_true]
  have hdroplit : (sentryEditionLit ++ ' ' :: tagsJoin tags).drop sentryEditionLit.length =
      ' ' :: tagsJoin tags := List.drop_left _ _
  rw [hdroplit]
  have htw : ((' ' :: tagsJoin tags).takeWhile isWS).length = 1 := by
    simp [List.takeWhile_cons, hws, htj]
  rw [htw]
  rfl

theorem splitChar_ne_nil (sep : Char) (cs : List Char) : splitChar sep cs ≠ [] := by
  cases cs with
  | nil => simp [splitChar]
  | cons c rest =>
    unfold splitChar
    by_cases hc : c = sep
    · simp [hc]
    · simp only [hc, if_false]
      cases splitChar sep rest <;> simp

theorem splitChar_no_sep (sep : Char) (t : List Char) (h : ∀ c ∈ t, c ≠ sep) :
    splitChar sep t = [t] := by
  induction t with
  | nil => rfl
  | cons c t2 ih =>
    have hc : ¬ c = sep := h c (List.mem_cons_self c t2)
    unfold splitChar
    rw [ih (fun d hd => h d (List.mem_cons_of_mem c hd))]
    simp [hc]

theorem splitChar_append_sep (sep : Char) (t rest : List Char) (h : ∀ c ∈ t, c ≠ sep) :
    splitChar sep (t ++ sep :: rest) = t :: splitChar sep rest := by
  induction t with
  | nil =>
    simp only [List.nil_append]
    conv_lhs => unfold splitChar
    rw [if_pos rfl]
  | cons c t2 ih =>
    have hc : ¬ c = sep := h c (List.mem_cons_self c t2)
    have ih2 := ih (fun d hd => h d (List.mem_cons_of_mem c hd))
    simp only [List.cons_append]
    conv_lhs => unfold splitChar
    rw [ih2]
    simp [hc]

theorem dropWhile_eq_self_of_head (p : Char → Bool) (c : Char) (t : List Char)
    (hc : p c = false) : (c :: t).dropWhile p = c :: t := by
  simp [List.dropWhile_cons, hc]

theorem pyStrip_of_all_not_ws (t : List Char) (h : ∀ c ∈ t, isWS c = false) :
    pyStrip t = t := by
  unfold pyStrip
  have h1 : t.dropWhile isWS = t := by
    cases t with
    | nil => rfl
    | cons c t2 => exact dropWhile_eq_self_of_head isWS c t2 (h c (List.mem_cons_self c t2))
  rw [h1]
  have h2 : t.reverse.dropWhile isWS = t.reverse := by
    cases ht : t.reverse with
    | nil => rfl
    | cons c t2 =>
      have hc : c ∈ t := by
        rw [← List.mem_reverse, ht]
        exact List.mem_cons_self c t2
      rw [← ht]
      rw [ht]
      exact dropWhile_eq_self_of_head isWS c t2 (h c hc)
  rw [h2, List.reverse_reverse]

theorem pyStrip_cons_ws (c : Char) (t : List Char) (hc : isWS c = true) :
    pyStrip (c :: t) = pyStrip t := by
  unfold pyStrip
  simp [List.dropWhile_cons, hc]

theorem tagOK_props (t : List Char) (ht : tagOK t = true) :
    t ≠ [] ∧ (∀ c ∈ t, isWS c = false) ∧ (∀ c ∈ t, c ≠ ',') := by
  unfold tagOK at ht
  obtain ⟨hne, hchar⟩ := (Bool.and_eq_true _ _).mp ht
  refine ⟨?_, ?_, ?_⟩
  · cases t with
    | nil => simp at hne
    | cons c t2 => simp
  · intro c hc
    have := (List.all_eq_true.mp hchar) c hc
    simp only [Bool.and_eq_true, Bool.not_eq_true'] at this
    exact this.1.1
  · intro c hc
    have := (List.all_eq_true.mp hchar) c hc
    simp only [Bool.and_eq_true, Bool.not_eq_true'] at this
    intro e
    rw [e] at this
    simpa using this.1.2

theorem parseTags_tagsJoin (tags : List (List Char)) (h : tags.all tagOK = true) :
    parseTags (tagsJoin tags) = tags := by
  induction tags with
  | nil => rfl
  | cons t rest ih =>
    have ht : tagOK t = true := (List.all_eq_true.mp h) t (List.mem_cons_self t rest)
    have hrest : rest.all tagOK = true := by
      rw [List.all_eq_true]
      intro u hu
      exact (List.all_eq_true.mp h) u (List.mem_cons_of_mem t hu)
    rcases tagOK_props t ht with ⟨hne, hws, hcomma⟩
    have hstrip : pyStrip t = t := pyStrip_of_all_not_ws t hws
    have hkeep : (!t.isEmpty) = true := by
      cases t with
      | nil => exact absurd rfl hne
      | cons c t2 => rfl
    cases rest with
    | nil =>
      have hexp : tagsJoin [t] = t := rfl
      rw [hexp]
      unfold parseTags
      rw [splitChar_no_sep ',' t hcomma]
      simp [hstrip, hkeep]
    | cons t3 rest3 =>
      have ih2 := ih hrest
      have hexp : tagsJoin (t :: t3 :: rest3) =
          t ++ ',' :: ' ' :: tagsJoin (t3 :: rest3) := rfl
      rw [hexp]
      obtain ⟨h0, t0, hsp⟩ : ∃ h0 t0, splitChar ',' (tagsJoin (t3 :: rest3)) = h0 :: t0 := by
        cases he : splitChar ',' (tagsJoin (t3 :: rest3)) with
        | nil => exact absurd he (splitChar_ne_nil _ _)
        | cons h0 t0 => exact ⟨h0, t0, rfl⟩
      have hsp2 : splitChar ',' (' ' :: tagsJoin (t3 :: rest3)) = (' ' :: h0) :: t0 := by
        unfold splitChar
        rw [hsp]
        simp
      unfold parseTags
      rw [splitChar_append_sep ',' t _ hcomma, hsp2]
      unfold parseTags at ih2
      rw [hsp] at ih2
      simp only [List.map_cons, List.filter_cons]
      rw [hstrip, pyStrip_cons_ws ' ' h0 (by decide)]
      simp only [hkeep, if_true]
      simp only [List.map_cons, List.filter_cons] at ih2
      rw [ih2]

theorem mem_dropWhile_of_mem (p : Char → Bool) (c : Char) :
    ∀ cs : List Char, c ∈ cs → p c = false → c ∈ cs.dropWhile p := by
  intro cs
  induction cs with
  | nil => intro h; simp at h
  | cons x rest ih =>
    intro hm hp
    rw [List.dropWhile_cons]
    by_cases hx : p x
    · rw [if_pos hx]
      rcases List.mem_cons.mp hm with he | ht
      · rw [he] at hp
        rw [hp] at hx
        simp at hx
      · exact ih ht hp
    · rw [if_neg hx]
      exact hm

theorem pyStrip_ne_nil (cs : List Char) (c : Char) (hc : isWS c = false) (hm : c ∈ cs) :
    pyStrip cs ≠ [] := by
  unfold pyStrip
  intro he
  have h1 : c ∈ cs.dropWhile isWS := mem_dropWhile_of_mem isWS c cs hm hc
  have h2 : c ∈ (cs.dropWhile isWS).reverse := List.mem_reverse.mpr h1
  have h3 : c ∈ ((cs.dropWhile isWS).reverse.dropWhile isWS) :=
    mem_dropWhile_of_mem isWS c _ h2 hc
  have h4 : c ∈ ((cs.dropWhile isWS).reverse.dropWhile isWS).reverse :=
    List.mem_reverse.mpr h3
  rw [he] at h4
  simp at h4

theorem not_tab_of_not_ws (c : Char) (hc : isWS c = false) : ¬ c = '\t' := by
  intro e
  rw [e] at hc
  simp [isWS] at hc

theorem lineIndent_cons_not_ws (c : Char) (t : List Char) (hc : isWS c = false) :
    lineIndent (c :: t) = 0 := by
  unfold lineIndent expandtabs
  rw [expandtabsAux, if_neg (not_tab_of_not_ws c hc)]
  unfold wsPrefixLen
  simp [List.takeWhile_cons, hc]

theorem lineIndent_render_four (c : Char) (t : List Char) (hc : isWS c = false) :
    lineIndent (' ' :: ' ' :: ' ' :: ' ' :: (c :: t)) = 4 := by
  unfold lineIndent expandtabs
  rw [expandtabsAux, if_neg (show ¬(' ' = '\t') by decide)]
  rw [expandtabsAux, if_neg (show ¬(' ' = '\t') by decide)]
  rw [expandtabsAux, if_neg (show ¬(' ' = '\t') by decide)]
  rw [expandtabsAux, if_neg (show ¬(' ' = '\t') by decide)]
  rw [expandtabsAux, if_neg (not_tab_of_not_ws c hc)]
  unfold wsPrefixLen
  simp [List.takeWhile_cons, hc, (by decide : isWS ' ' = true)]

theorem findBlock_render (body rest : List (List Char))
    (hbody : body.all bodyLineOK = true) (hbrk : breakFirst rest = true) :
    findBlock 0 (body.map renderBodyLine ++ rest) =
      (body.map renderBodyLine,
       (if body.all List.isEmpty then none else some 4),
       body.length) := by
  induction body with
  | nil =>
    simp only [List.map_nil, List.nil_append, List.all_nil, if_true, List.length_nil]
    cases rest with
    | nil => rfl
    | cons l rest2 =>
      unfold breakFirst breakingLine at hbrk
      cases l with
      | nil => simp at hbrk
      | cons c t =>
        have hc : isWS c = false := by
          simpa using hbrk
        unfold findBlock
        have hstrip : ((pyStrip (c :: t)).isEmpty) = false := by
          cases hps : pyStrip (c :: t) with
          | nil => exact absurd hps (pyStrip_ne_nil _ c hc (List.mem_cons_self c t))
          | cons a b => rfl
        rw [hstrip]
        simp only [Bool.false_eq_true, if_false]
        rw [lineIndent_cons_not_ws c t hc]
        simp
  | cons bl body2 ih =>
    have hbl : bodyLineOK bl = true := (List.all_eq_true.mp hbody) bl (List.mem_cons_self bl body2)
    have hbody2 : body2.all bodyLineOK = true := by
      rw [List.all_eq_true]
      intro u hu
      exact (List.all_eq_true.mp hbody) u (List.mem_cons_of_mem bl hu)
    have ih2 := ih hbody2
    cases bl with
    | nil =>
      simp only [List.map_cons, List.cons_append]
      unfold findBlock
      have hr : renderBodyLine [] = [] := rfl
      rw [hr]
      have hstrip : ((pyStrip ([] : List Char)).isEmpty) = true := rfl
      rw [hstrip]
      simp only [if_true]
      rw [ih2]
      simp [renderBodyLine]
    | cons c t =>
      have hc : isWS c = false := by
        unfold bodyLineOK at hbl
        simpa using hbl
      simp only [List.map_cons, List.cons_append]
      unfold findBlock
      have hr : renderBodyLine (c :: t) = ' ' :: ' ' :: ' ' :: ' ' :: (c :: t) := by
        unfold renderBodyLine
        rfl
      rw [hr]
      have hstrip : ((pyStrip (' ' :: ' ' :: ' ' :: ' ' :: (c :: t))).isEmpty) = false := by
        cases hps : pyStrip (' ' :: ' ' :: ' ' :: ' ' :: (c :: t)) with
        | nil =>
          exact absurd hps (pyStrip_ne_nil _ c hc (by simp))
        | cons a b => rfl
      rw [hstrip]
      simp only [Bool.false_eq_true, if_false]
      rw [lineIndent_render_four c t hc]
      simp only [Nat.zero_lt_succ, if_true]
      rw [ih2]
      simp only [List.all_cons, List.isEmpty_cons, Bool.false_and]
      by_cases hall : body2.all List.isEmpty
      · rw [if_pos hall]
        simp [hr]
      · rw [if_neg hall]
        simp only [Bool.false_eq_true, if_false]
        simp [hr]

theorem findBlockCount_render (body rest : List (List Char))
    (hbody : body.all bodyLineOK = true) (hbrk : breakFirst rest = true) :
    findBlockCount 0 (body.map renderBodyLine ++ rest) = body.length := by
  unfold findBlockCount
  rw [findBlock_render body rest hbody hbrk]

theorem map_render_of_all_blank (body : List (List Char))
    (h : body.all List.isEmpty = true) : body.map renderBodyLine = body := by
  induction body with
  | nil => rfl
  | cons bl body2 ih =>
    simp only [List.all_cons, Bool.and_eq_true] at h
    have hbl : bl = [] := by
      cases bl with
      | nil => rfl
      | cons a b => simp at h
    rw [List.map_cons, ih h.2, hbl]
    rfl

theorem map_drop_render (body : List (List Char)) (hbody : body.all bodyLineOK = true) :
    (body.map renderBodyLine).map (fun x => x.drop 4) = body := by
  induction body with
  | nil => rfl
  | cons bl body2 ih =>
    have hbl : bodyLineOK bl = true := (List.all_eq_true.mp hbody) bl (List.mem_cons_self bl body2)
    have hbody2 : body2.all bodyLineOK = true := by
      rw [List.all_eq_true]
      intro u hu
      exact (List.all_eq_true.mp hbody) u (List.mem_cons_of_mem bl hu)
    simp only [List.map_cons]
    rw [ih hbody2]
    cases bl with
    | nil => rfl
    | cons c t => rfl

theorem findBlockOut_render (body rest : List (List Char))
    (hbody : body.all bodyLineOK = true) (hbrk : breakFirst rest = true) :
    findBlockOut 0 (body.map renderBodyLine ++ rest) =
      (if body.isEmpty then [] else body ++ [[]]) := by
  unfold findBlockOut
  rw [findBlock_render body rest hbody hbrk]
  cases body with
  | nil => rfl
  | cons bl body2 =>
    simp only [List.map_cons, List.isEmpty_cons, Bool.false_eq_true, if_false]
    by_cases hall : (bl :: body2).all List.isEmpty
    · rw [if_pos hall]
      have hmap : (bl :: body2).map renderBodyLine = bl :: body2 :=
        map_render_of_all_blank _ hall
      simp only [List.map_cons] at hmap
      rw [hmap]
    · rw [if_neg hall]
      simp only [Nat.succ_ne_zero, if_false]
      have : ((bl :: body2).map renderBodyLine ++ [[]]).map
            (fun (x : List Char) => x.drop 4) = (bl :: body2) ++ [[]] := by
        rw [List.map_append, map_drop_render _ hbody]
        rfl
      simp only [List.map_cons] at this ⊢
      rw [this]

theorem preprocess_lines_cons_plain (getVar : List Char → Except Unit (List Char))
    (variant : List Char) (l : List Char) (rest : List (List Char))
    (h1 : editionMatch l = none) (h2 : doceditionMatch l = false) (h3 : hasVarL l = false) :
    preprocess_lines getVar variant (l :: rest) =
      match preprocess_lines getVar variant rest with
      | Except.error e => Except.error e
      | Except.ok out => Except.ok (l :: out) := by
  conv_lhs => unfold preprocess_lines
  rw [show subVars getVar l = Except.ok l from subVarsGo_of_no_var getVar l.length l h3]
  dsimp only
  rw [h1]
  dsimp only
  rw [h2]
  simp

theorem preprocess_lines_cons_docedition (getVar : List Char → Except Unit (List Char))
    (variant : List Char) (l : List Char) (rest : List (List Char))
    (h1 : editionMatch l = none) (h2 : doceditionMatch l = true) (h3 : hasVarL l = false) :
    preprocess_lines getVar variant (l :: rest) = preprocess_lines getVar variant rest := by
  conv_lhs => unfold preprocess_lines
  rw [show subVars getVar l = Except.ok l from subVarsGo_of_no_var getVar l.length l h3]
  dsimp only
  rw [h1]
  dsimp only
  rw [h2]
  simp

theorem preprocess_lines_cons_edition (getVar : List Char → Except Unit (List Char))
    (variant : List Char) (tags : List (List Char)) (body rest : List (List Char))
    (htags : tags.all tagOK = true) (hbody : body.all bodyLineOK = true)
    (hbrk : breakFirst rest = true) :
    preprocess_lines getVar variant (markerLine tags :: (body.map renderBodyLine ++ rest)) =
      match preprocess_lines getVar variant rest with
      | Except.error e => Except.error e
      | Except.ok out =>
        Except.ok ((if variant ∈ tags
          then (if body.isEmpty then [] else body ++ [[]]) else []) ++ out) := by
  have hnovar : hasVarL (markerLine tags) = false :=
    hasVarL_of_no_hash _ (markerLine_no_hash tags htags)
  conv_lhs => unfold preprocess_lines
  rw [show subVars getVar (markerLine tags) = Except.ok (markerLine tags) from
    subVarsGo_of_no_var getVar _ _ hnovar]
  dsimp only
  rw [editionMatch_markerLine tags htags]
  dsimp only
  have hbi : (expandtabs ([] : List Char)).length = 0 := rfl
  simp only [hbi]
  rw [findBlockCount_render body rest hbody hbrk,
    findBlockOut_render body rest hbody hbrk]
  have hdrop : (body.map renderBodyLine ++ rest).drop body.length = rest := by
    have hlen : body.length = (body.map renderBodyLine).length := (List.length_map _ _).symm
    rw [hlen, List.drop_left]
  rw [hdrop]
  have hshould : shouldInclude variant (tagsJoin tags) = decide (variant ∈ tags) := by
    unfold shouldInclude
    rw [parseTags_tagsJoin tags htags]
  rw [hshould]
  by_cases hv : variant ∈ tags
  · rw [if_pos (decide_eq_true hv), if_pos hv]
  · rw [if_neg (fun h => hv (of_decide_eq_true h)), if_neg hv]
    cases hp : preprocess_lines getVar variant rest <;> simp

theorem WFdoc_cons (x : DocItem) (rest : List DocItem) :
    WFdoc (x :: rest) = (WFitem x &&
      (match x, rest with
       | DocItem.edition _ _, y :: _ => startsBreaking y
       | _, _ => true) && WFdoc rest) := rfl

theorem breakFirst_render (y : DocItem) (rest2 : List DocItem)
    (hwf : WFitem y = true) (hsb : startsBreaking y = true) :
    breakFirst (renderDoc (y :: rest2)) = true := by
  cases y with
  | plain l =>
    cases l with
    | nil => simp [startsBreaking] at hsb
    | cons c t =>
      have : renderDoc (DocItem.plain (c :: t) :: rest2) = (c :: t) :: renderDoc rest2 := rfl
      rw [this]
      unfold breakFirst breakingLine
      unfold startsBreaking at hsb
      exact hsb
  | docedition l =>
    unfold WFitem at hwf
    have hl := ((Bool.and_eq_true _ _).mp hwf).2
    cases l with
    | nil => simp at hl
    | cons c t =>
      have : renderDoc (DocItem.docedition (c :: t) :: rest2) = (c :: t) :: renderDoc rest2 := rfl
      rw [this]
      unfold breakFirst breakingLine
      exact hl
  | edition tags body =>
    have : renderDoc (DocItem.edition tags body :: rest2) =
        markerLine tags :: (body.map renderBodyLine ++ renderDoc rest2) := by
      simp [renderDoc, renderItem]
    rw [this, markerLine_eq]
    rfl

/-- C1: for every structured source text (ordinary lines, `sentry:docedition`
lines, and canonically written edition blocks — see `WFdoc` for the syntactic
side conditions) and every configured variant, `preprocess_source`'s line
loop keeps the lines outside edition blocks, always drops the
`sentry:docedition` lines, and includes the content block introduced by a
`.. sentry:edition:: tags` marker if and only if the variant is a member of
the marker's comma-separated tag set (an included block is emitted dedented,
with its trailing separator line). -/
theorem c1_preprocess_edition_filtering (getVar : List Char → Except Unit (List Char))
    (variant : List Char) (doc : List DocItem) (h : WFdoc doc = true) :
    preprocess_lines getVar variant (renderDoc doc) =
      Except.ok (expectedOut variant doc) := by
  induction doc with
  | nil =>
    have hr : renderDoc ([] : List DocItem) = [] := rfl
    rw [hr]
    conv_lhs => unfold preprocess_lines
    rfl
  | cons x rest ih =>
    rw [WFdoc_cons, Bool.and_eq_true, Bool.and_eq_true] at h
    obtain ⟨⟨hx, hadj⟩, hrest⟩ := h
    have ih2 := ih hrest
    cases x with
    | plain l =>
      unfold WFitem at hx
      rw [Bool.and_eq_true, Bool.and_eq_true] at hx
      obtain ⟨⟨hx1, hx2⟩, hx3⟩ := hx
      have h1 : editionMatch l = none := Option.isNone_iff_eq_none.mp hx1
      have h2 : doceditionMatch l = false := by
        cases hq : doceditionMatch l
        · rfl
        · rw [hq] at hx2; simp at hx2
      have h3 : hasVarL l = false := by
        cases hq : hasVarL l
        · rfl
        · rw [hq] at hx3; simp at hx3
      have hr : renderDoc (DocItem.plain l :: rest) = l :: renderDoc rest := rfl
      rw [hr, preprocess_lines_cons_plain getVar variant l _ h1 h2 h3, ih2]
      rfl
    | docedition l =>
      unfold WFitem at hx
      rw [Bool.and_eq_true, Bool.and_eq_true, Bool.and_eq_true] at hx
      obtain ⟨⟨⟨hx1, hx2⟩, hx3⟩, _⟩ := hx
      have h1 : editionMatch l = none := Option.isNone_iff_eq_none.mp hx2
      have h3 : hasVarL l = false := by
        cases hq : hasVarL l
        · rfl
        · rw [hq] at hx3; simp at hx3
      have hr : renderDoc (DocItem.docedition l :: rest) = l :: renderDoc rest := rfl
      rw [hr, preprocess_lines_cons_docedition getVar variant l _ h1 hx1 h3, ih2]
      rfl
    | edition tags body =>
      unfold WFitem at hx
      rw [Bool.and_eq_true] at hx
      obtain ⟨htags, hbody⟩ := hx
      have hbrk : breakFirst (renderDoc rest) = true := by
        cases rest with
        | nil => rfl
        | cons y rest2 =>
          have hwfy : WFitem y = true := by
            rw [WFdoc_cons, Bool.and_eq_true, Bool.and_eq_true] at hrest
            exact hrest.1.1
          exact breakFirst_render y rest2 hwfy hadj
      have hr : renderDoc (DocItem.edition tags body :: rest) =
          markerLine tags :: (body.map renderBodyLine ++ renderDoc rest) := by
        simp [renderDoc, renderItem]
      rw [hr, preprocess_lines_cons_edition getVar variant tags body _ htags hbody hbrk, ih2]
      rfl

theorem c1_preprocess_edition_filtering_witness :
    WFdoc c1WitnessDoc = true ∧
    preprocess_lines (fun _ => Except.ok []) "hosted".toList (renderDoc c1WitnessDoc) =
      Except.ok (expectedOut "hosted".toList c1WitnessDoc) :=
  ⟨by decide, c1_preprocess_edition_filtering _ _ _ (by decide)⟩

/-- C8 (amended): `activate` only defaults the variant — when the conf
globals do not already bind `sentry_doc_variant`, it is set to the
environment variable's value, `'self'` when that is unset (an existing conf
value wins, see the counterexample) — and the preprocessing loop compares
exactly that value against each edition marker's tag set. -/
theorem c8_variant_selection_amended (globs : List (List Char × List Char))
    (envVariant : Option (List Char))
    (h : alookup globs "sentry_doc_variant".toList = none) :
    alookup (activate globs envVariant) "sentry_doc_variant".toList =
      some (envVariant.getD "self".toList) ∧
    (∀ (getVar : List Char → Except Unit (List Char)) tags (body : List (List Char)),
      tags.all tagOK = true → body.all bodyLineOK = true →
      preprocess_lines getVar (envVariant.getD "self".toList)
          (markerLine tags :: body.map renderBodyLine) =
        Except.ok (if envVariant.getD "self".toList ∈ tags
          then (if body.isEmpty then [] else body ++ [[]]) else [])) := by
  constructor
  · unfold activate
    rw [h]
    rw [alookup_append, h]
    simp [alookup]
  · intro getVar tags body htags hbody
    have hnil : preprocess_lines getVar (envVariant.getD "self".toList) [] =
        Except.ok [] := by
      conv_lhs => unfold preprocess_lines
    have hstep := preprocess_lines_cons_edition getVar (envVariant.getD "self".toList)
      tags body [] htags hbody rfl
    rw [hnil] at hstep
    simp only [List.append_nil] at hstep ⊢
    exact hstep

theorem c8_variant_selection_amended_witness :
    alookup ([] : List (List Char × List Char)) "sentry_doc_variant".toList = none ∧
    alookup (activate [] (some "hosted".toList)) "sentry_doc_variant".toList =
      some ((some "hosted".toList).getD "self".toList) ∧
    (["hosted".toList] : List (List Char)).all tagOK = true ∧
    (["pip install sentry".toList] : List (List Char)).all bodyLineOK = true ∧
    preprocess_lines (fun _ => Except.ok []) ((some "hosted".toList).getD "self".toList)
        (markerLine ["hosted".toList] :: ["pip install sentry".toList].map renderBodyLine) =
      Except.ok (if (some "hosted".toList).getD "self".toList ∈ ["hosted".toList]
        then (if (["pip install sentry".toList] : List (List Char)).isEmpty then []
          else ["pip install sentry".toList] ++ [[]]) else []) :=
  ⟨by decide,
   (c8_variant_selection_amended [] (some "hosted".toList) (by decide)).1,
   by decide, by decide,
   (c8_variant_selection_amended [] (some "hosted".toList) (by decide)).2 _ _ _
     (by decide) (by decide)⟩

/-! ## Lemmas for the `is_referenced` worklist loop -/

theorem mem_foldl_addNew_of_mem_acc (seen : List String) (a : String) :
    ∀ (l acc : List String), a ∈ acc → a ∈ l.foldl (addNew seen) acc := by
  intro l
  induction l with
  | nil => intro acc h; exact h
  | cons b l2 ih =>
    intro acc h
    rw [List.foldl_cons]
    apply ih
    unfold addNew
    by_cases h1 : b ∈ seen
    · rw [if_pos h1]; exact h
    · rw [if_neg h1]
      by_cases h2 : b ∈ acc
      · rw [if_pos h2]; exact h
      · rw [if_neg h2]
        exact List.mem_append_left _ h

theorem mem_or_of_mem_foldl_addNew (seen : List String) (x : String) :
    ∀ (l acc : List String), x ∈ l.foldl (addNew seen) acc → x ∈ acc ∨ x ∈ l := by
  intro l
  induction l with
  | nil => intro acc h; exact Or.inl h
  | cons b l2 ih =>
    intro acc h
    rw [List.foldl_cons] at h
    rcases ih _ h with hacc | hl2
    · unfold addNew at hacc
      by_cases h1 : b ∈ seen
      · rw [if_pos h1] at hacc; exact Or.inl hacc
      · rw [if_neg h1] at hacc
        by_cases h2 : b ∈ acc
        · rw [if_pos h2] at hacc; exact Or.inl hacc
        · rw [if_neg h2] at hacc
          rcases List.mem_append.mp hacc with h3 | h3
          · exact Or.inl h3
          · simp only [List.mem_singleton] at h3
            exact Or.inr (h3 ▸ List.mem_cons_self b l2)
    · exact Or.inr (List.mem_cons_of_mem b hl2)

theorem foldl_addNew_covers (seen : List String) (b : String) :
    ∀ (l acc : List String), b ∈ l → b ∈ seen ∨ b ∈ l.foldl (addNew seen) acc := by
  intro l
  induction l with
  | nil => intro acc h; simp at h
  | cons c l2 ih =>
    intro acc h
    rcases List.mem_cons.mp h with he | ht
    · subst he
      by_cases h1 : b ∈ seen
      · exact Or.inl h1
      · right
        rw [List.foldl_cons]
        apply mem_foldl_addNew_of_mem_acc
        unfold addNew
        rw [if_neg h1]
        by_cases h2 : b ∈ acc
        · rw [if_pos h2]; exact h2
        · rw [if_neg h2]
          exact List.mem_append_right _ (List.mem_singleton.mpr rfl)
    · rw [List.foldl_cons]
      exact ih _ ht

theorem nodup_foldl_addNew (seen : List String) :
    ∀ (l acc : List String), acc.Nodup → (l.foldl (addNew seen) acc).Nodup := by
  intro l
  induction l with
  | nil => intro acc h; exact h
  | cons b l2 ih =>
    intro acc h
    rw [List.foldl_cons]
    apply ih
    unfold addNew
    by_cases h1 : b ∈ seen
    · rw [if_pos h1]; exact h
    · rw [if_neg h1]
      by_cases h2 : b ∈ acc
      · rw [if_pos h2]; exact h
      · rw [if_neg h2]
        rw [List.nodup_append]
        exact ⟨h, List.nodup_singleton b, by simpa using h2⟩

theorem foldl_addNew_eq_acc (seen : List String) :
    ∀ (l acc : List String), (∀ b ∈ l, b ∈ seen ∨ b ∈ acc) →
      l.foldl (addNew seen) acc = acc := by
  intro l
  induction l with
  | nil => intro acc _; rfl
  | cons b l2 ih =>
    intro acc h
    rw [List.foldl_cons]
    have hb := h b (List.mem_cons_self b l2)
    have hstep : addNew seen acc b = acc := by
      unfold addNew
      rcases hb with h1 | h2
      · rw [if_pos h1]
      · by_cases h1 : b ∈ seen
        · rw [if_pos h1]
        · rw [if_neg h1, if_pos h2]
    rw [hstep]
    exact ih _ (fun c hc => h c (List.mem_cons_of_mem b hc))

theorem length_foldl_addNew (seen : List String) :
    ∀ (l acc : List String), (l.foldl (addNew seen) acc).length ≤ acc.length + l.length := by
  intro l
  induction l with
  | nil => intro acc; simp
  | cons b l2 ih =>
    intro acc
    rw [List.foldl_cons]
    have hstep : (addNew seen acc b).length ≤ acc.length + 1 := by
      unfold addNew
      by_cases h1 : b ∈ seen
      · rw [if_pos h1]; omega
      · rw [if_neg h1]
        by_cases h2 : b ∈ acc
        · rw [if_pos h2]; omega
        · rw [if_neg h2]; simp
    calc (l2.foldl (addNew seen) (addNew seen acc b)).length
        ≤ (addNew seen acc b).length + l2.length := ih _
      _ ≤ acc.length + 1 + l2.length := by omega
      _ = acc.length + (b :: l2).length := by simp; omega

theorem getRefs_length_le (references : List (String × List String)) (d : String) :
    (getRefs references d).length ≤ refsSizeS references := by
  induction references with
  | nil => simp [getRefs, alookup, refsSizeS]
  | cons p rest ih =>
    have hsz : refsSizeS (p :: rest) = p.2.length + refsSizeS rest := rfl
    unfold getRefs alookup
    by_cases hp : p.1 = d
    · rw [if_pos hp]
      simp only [Option.getD_some]
      omega
    · rw [if_neg hp]
      have := ih
      unfold getRefs at this
      omega

theorem mem_refsUniverse (references : List (String × List String)) (b d : String)
    (h : b ∈ getRefs references d) :
    b ∈ references.foldr (fun p acc => p.1 :: (p.2 ++ acc)) [] := by
  induction references with
  | nil => simp [getRefs, alookup] at h
  | cons p rest ih =>
    unfold getRefs alookup at h
    simp only [List.foldr_cons]
    by_cases hp : p.1 = d
    · rw [if_pos hp] at h
      simp only [Option.getD_some] at h
      exact List.mem_cons_of_mem _ (List.mem_append_left _ h)
    · rw [if_neg hp] at h
      have := ih h
      exact List.mem_cons_of_mem _ (List.mem_append_right _ this)

theorem getRefs_sub_candidates (references : List (String × List String))
    (docname b d : String) (h : b ∈ getRefs references d) :
    b ∈ refsCandidates docname references := by
  unfold refsCandidates
  exact List.mem_cons_of_mem _ (mem_refsUniverse references b d h)

theorem filter_length_mono {α : Type} (p q : α → Bool) :
    ∀ l : List α, (∀ x ∈ l, q x = true → p x = true) →
      (l.filter q).length ≤ (l.filter p).length := by
  intro l
  induction l with
  | nil => intro _; simp
  | cons x rest ih =>
    intro h
    have hrest := ih (fun y hy => h y (List.mem_cons_of_mem x hy))
    rw [List.filter_cons, List.filter_cons]
    by_cases hq : q x = true
    · rw [hq, h x (List.mem_cons_self x rest) hq, if_pos rfl, if_pos rfl]
      simp only [List.length_cons]
      omega
    · have hq2 : q x = false := by simpa using hq
      rw [hq2, if_neg Bool.false_ne_true]
      by_cases hp : p x = true
      · rw [hp, if_pos rfl]
        simp only [List.length_cons]
        omega
      · have hp2 : p x = false := by simpa using hp
        rw [hp2, if_neg Bool.false_ne_true]
        exact hrest

theorem filter_length_strict {α : Type} (p q : α → Bool) (a : α) :
    ∀ l : List α, a ∈ l → p a = true → q a = false →
      (∀ x ∈ l, q x = true → p x = true) →
      (l.filter q).length < (l.filter p).length := by
  intro l
  induction l with
  | nil => intro h; simp at h
  | cons x rest ih =>
    intro hm hpa hqa h
    rw [List.filter_cons, List.filter_cons]
    rcases List.mem_cons.mp hm with he | ht
    · subst he
      rw [hqa, hpa, if_neg Bool.false_ne_true, if_pos rfl]
      have := filter_length_mono p q rest (fun y hy => h y (List.mem_cons_of_mem a hy))
      simp only [List.length_cons]
      omega
    · have hrest := ih ht hpa hqa (fun y hy => h y (List.mem_cons_of_mem x hy))
      by_cases hq : q x = true
      · rw [hq, h x (List.mem_cons_self x rest) hq, if_pos rfl, if_pos rfl]
        simp only [List.length_cons]
        omega
      · have hq2 : q x = false := by simpa using hq
        rw [hq2, if_neg Bool.false_ne_true]
        by_cases hp : p x = true
        · rw [hp, if_pos rfl]
          simp only [List.length_cons]
          omega
        · have hp2 : p x = false := by simpa using hp
          rw [hp2, if_neg Bool.false_ne_true]
          exact hrest

theorem filter_notin_cons_of_mem (cands seen : List String) (next : String)
    (h : next ∈ seen) :
    (cands.filter (fun x => decide (x ∉ next :: seen))).length =
      (cands.filter (fun x => decide (x ∉ seen))).length := by
  have : cands.filter (fun x => decide (x ∉ next :: seen)) =
      cands.filter (fun x => decide (x ∉ seen)) := by
    apply List.filter_congr
    intro x _
    by_cases hx : x ∈ seen
    · simp [hx]
    · have hxn : ¬ x = next := by
        intro e
        rw [e] at hx
        exact hx h
      simp [hx, hxn]
  rw [this]

theorem RefChain_snoc (references : List (String × List String)) (a b c : String)
    (h : RefChain references a b) (hc : c ∈ getRefs references b) :
    RefChain references a c := by
  induction h with
  | refl x => exact RefChain.step x c c hc (RefChain.refl c)
  | step x y z hy hz ih => exact RefChain.step x y c hy (ih hc)

theorem isRefGo_sound (references : List (String × List String)) (docname : String) :
    ∀ (fuel : Nat) (seen tp : List String),
      (∀ x ∈ tp, RefChain references docname x) →
      isRefGo references fuel seen tp = true →
      RefChain references docname "index" := by
  intro fuel
  induction fuel with
  | zero => intro seen tp _ h; simp [isRefGo] at h
  | succ fuel ih =>
    intro seen tp htp h
    cases tp with
    | nil => simp [isRefGo] at h
    | cons next rest =>
      unfold isRefGo at h
      dsimp only at h
      by_cases hidx : "index" ∈ next :: rest
      · exact htp "index" hidx
      · rw [if_neg hidx] at h
        apply ih _ _ ?_ h
        intro x hx
        rcases mem_or_of_mem_foldl_addNew _ x _ _ hx with hr | hg
        · exact htp x (List.mem_cons_of_mem next hr)
        · exact RefChain_snoc references docname next x
            (htp next (List.mem_cons_self next rest)) hg

theorem refchain_escape (references : List (String × List String)) (y tgt : String)
    (hy : RefChain references y tgt) :
    ∀ (seen tp : List String),
      (∀ x ∈ seen, ∀ z ∈ getRefs references x, z ∈ seen ∨ z ∈ tp) →
      tgt ∉ seen → (y ∈ seen ∨ y ∈ tp) →
      ∃ z ∈ tp, RefChain references z tgt := by
  induction hy with
  | refl a =>
    intro seen tp _ hni hmem
    rcases hmem with hs | ht
    · exact absurd hs hni
    · exact ⟨a, ht, RefChain.refl a⟩
  | step a b c hb hchain ih =>
    intro seen tp hcl hni hmem
    rcases hmem with hs | ht
    · rcases hcl a hs b hb with hbs | hbt
      · exact ih seen tp hcl hni (Or.inl hbs)
      · exact ih seen tp hcl hni (Or.inr hbt)
    · exact ⟨a, ht, RefChain.step a b c hb hchain⟩

theorem isRefGo_complete (references : List (String × List String)) (docname : String) :
    ∀ (fuel : Nat) (seen tp : List String),
      tp.Nodup →
      (∀ x ∈ tp, x ∈ refsCandidates docname references) →
      (∀ x ∈ seen, ∀ z ∈ getRefs references x, z ∈ seen ∨ z ∈ tp) →
      "index" ∉ seen →
      refMeasure (refsCandidates docname references) (refsSizeS references) seen tp ≤ fuel →
      (∃ x, x ∈ tp ∧ RefChain references x "index") →
      isRefGo references fuel seen tp = true := by
  intro fuel
  induction fuel with
  | zero =>
    intro seen tp _ _ _ _ hM hw
    rcases hw with ⟨x, hx, _⟩
    have h1 : 1 ≤ tp.length := by
      cases tp
      · simp at hx
      · simp
    have h2 : tp.length ≤ refMeasure (refsCandidates docname references)
        (refsSizeS references) seen tp := Nat.le_add_right _ _
    omega
  | succ fuel ih =>
    intro seen tp hnd hcand hcl hni hM hw
    cases tp with
    | nil =>
      rcases hw with ⟨x, hx, _⟩
      simp at hx
    | cons next rest =>
      unfold isRefGo
      dsimp only
      by_cases hidx : "index" ∈ next :: rest
      · rw [if_pos hidx]
      · rw [if_neg hidx]
        have hndrest : rest.Nodup := List.Nodup.of_cons hnd
        have hnd2 : ((getRefs references next).foldl (addNew (next :: seen)) rest).Nodup :=
          nodup_foldl_addNew _ _ _ hndrest
        have hcand2 : ∀ x ∈ (getRefs references next).foldl (addNew (next :: seen)) rest,
            x ∈ refsCandidates docname references := by
          intro x hx
          rcases mem_or_of_mem_foldl_addNew _ x _ _ hx with hr | hg
          · exact hcand x (List.mem_cons_of_mem next hr)
          · exact getRefs_sub_candidates references docname x next hg
        have hcl2 : ∀ x ∈ next :: seen, ∀ z ∈ getRefs references x,
            z ∈ next :: seen ∨
              z ∈ (getRefs references next).foldl (addNew (next :: seen)) rest := by
          intro x hx z hz
          rcases List.mem_cons.mp hx with he | hs
          · subst he
            exact foldl_addNew_covers (x :: seen) z (getRefs references x) rest hz
          · rcases hcl x hs z hz with h1 | h2
            · exact Or.inl (List.mem_cons_of_mem next h1)
            · rcases List.mem_cons.mp h2 with he2 | hr
              · left
                rw [he2]
                exact List.mem_cons_self next seen
              · exact Or.inr (mem_foldl_addNew_of_mem_acc _ z _ _ hr)
        have hni2 : "index" ∉ next :: seen := by
          intro hmem
          rcases List.mem_cons.mp hmem with he | hs
          · apply hidx
            rw [he]
            exact List.mem_cons_self next rest
          · exact hni hs
        have hw2 : ∃ z, z ∈ (getRefs references next).foldl (addNew (next :: seen)) rest ∧
            RefChain references z "index" := by
          rcases hw with ⟨x, hx, hchain⟩
          have hesc := refchain_escape references x "index" hchain (next :: seen)
            ((getRefs references next).foldl (addNew (next :: seen)) rest) hcl2 hni2
          have hmem : x ∈ next :: seen ∨
              x ∈ (getRefs references next).foldl (addNew (next :: seen)) rest := by
            rcases List.mem_cons.mp hx with he | hr
            · left
              rw [he]
              exact List.mem_cons_self next seen
            · exact Or.inr (mem_foldl_addNew_of_mem_acc _ x _ _ hr)
          rcases hesc hmem with ⟨z, hz1, hz2⟩
          exact ⟨z, hz1, hz2⟩
        have hM2 : refMeasure (refsCandidates docname references) (refsSizeS references)
            (next :: seen) ((getRefs references next).foldl (addNew (next :: seen)) rest) ≤
            fuel := by
          by_cases hns : next ∈ seen
          · have hfold : (getRefs references next).foldl (addNew (next :: seen)) rest = rest := by
              apply foldl_addNew_eq_acc
              intro b hb
              rcases hcl next hns b hb with h1 | h2
              · exact Or.inl (List.mem_cons_of_mem next h1)
              · rcases List.mem_cons.mp h2 with he | hr
                · left
                  rw [he]
                  exact List.mem_cons_self next seen
                · exact Or.inr hr
            rw [hfold]
            unfold refMeasure at hM ⊢
            rw [filter_notin_cons_of_mem _ seen next hns]
            simp only [List.length_cons] at hM
            generalize (refsSizeS references + 1) *
              ((refsCandidates docname references).filter
                (fun x => decide (x ∉ seen))).length = B at hM ⊢
            omega
          · have hnextcand : next ∈ refsCandidates docname references :=
              hcand next (List.mem_cons_self next rest)
            have hstrict : ((refsCandidates docname references).filter
                  (fun x => decide (x ∉ next :: seen))).length <
                ((refsCandidates docname references).filter
                  (fun x => decide (x ∉ seen))).length := by
              apply filter_length_strict _ _ next _ hnextcand
              · simp [hns]
              · simp
              · intro x _ hx
                simp only [decide_eq_true_eq] at hx ⊢
                intro hxs
                exact hx (List.mem_cons_of_mem next hxs)
            have hlen : ((getRefs references next).foldl (addNew (next :: seen)) rest).length ≤
                rest.length + refsSizeS references := by
              have h1 := length_foldl_addNew (next :: seen) (getRefs references next) rest
              have h2 := getRefs_length_le references next
              omega
            unfold refMeasure at hM ⊢
            simp only [List.length_cons] at hM
            have hprod : (refsSizeS references + 1) *
                  ((refsCandidates docname references).filter
                    (fun x => decide (x ∉ next :: seen))).length +
                  (refsSizeS references + 1) ≤
                (refsSizeS references + 1) *
                  ((refsCandidates docname references).filter
                    (fun x => decide (x ∉ seen))).length := by
              have h21 : ((refsCandidates docname references).filter
                    (fun x => decide (x ∉ next :: seen))).length + 1 ≤
                  ((refsCandidates docname references).filter
                    (fun x => decide (x ∉ seen))).length := hstrict
              calc (refsSizeS references + 1) *
                    ((refsCandidates docname references).filter
                      (fun x => decide (x ∉ next :: seen))).length +
                    (refsSizeS references + 1)
                  = (refsSizeS references + 1) *
                      (((refsCandidates docname references).filter
                        (fun x => decide (x ∉ next :: seen))).length + 1) := by ring
                _ ≤ (refsSizeS references + 1) *
                      ((refsCandidates docname references).filter
                        (fun x => decide (x ∉ seen))).length :=
                    Nat.mul_le_mul_left _ h21
            generalize (refsSizeS references + 1) *
              ((refsCandidates docname references).filter
                (fun x => decide (x ∉ next :: seen))).length = A at hprod ⊢
            generalize (refsSizeS references + 1) *
              ((refsCandidates docname references).filter
                (fun x => decide (x ∉ seen))).length = B at hprod hM
            omega
        exact ih (next :: seen) _ hnd2 hcand2 hcl2 hni2 hM2 hw2

theorem refchain_inv (references : List (String × List String)) (a tgt : String)
    (h : RefChain references a tgt) :
    a = tgt ∨ ∃ b, b ∈ getRefs references a ∧ RefChain references b tgt := by
  cases h with
  | refl => exact Or.inl rfl
  | step a b c hb hc => exact Or.inr ⟨b, hb, hc⟩

/-- C3: `is_referenced(docname, references)` returns `True` exactly when
`docname` is `'index'` or a finite chain `docname, d1, ..., dn = 'index'`
exists in which each next element is a member of the reference set of the
previous one (`RefChain`); and `write_doc` invokes the underlying document
write exactly when `is_referenced` holds, skipping the document otherwise. -/
theorem c3_is_referenced_iff_chain (references : List (String × List String))
    (docname : String) :
    (is_referenced docname references = true ↔ RefChain references docname "index") ∧
    (∀ (superWrite : DocSettings → DocSettings × Except Unit Unit) (st : DocSettings),
      (write_doc superWrite docname references st).2.isSome =
        is_referenced docname references) := by
  constructor
  · by_cases hd : docname = "index"
    · subst hd
      unfold is_referenced
      rw [if_pos rfl]
      exact ⟨fun _ => RefChain.refl _, fun _ => rfl⟩
    · unfold is_referenced
      rw [if_neg hd]
      dsimp only
      constructor
      · intro h
        apply isRefGo_sound references docname _ _ _ ?_ h
        intro x hx
        have hxg : x ∈ getRefs references docname := List.mem_dedup.mp hx
        exact RefChain.step docname x x hxg (RefChain.refl x)
      · intro hch
        rcases refchain_inv references docname "index" hch with he | ⟨b, hb, hchain⟩
        · exact absurd he hd
        · apply isRefGo_complete references docname _ _ _ (List.nodup_dedup _)
          · intro x hx
            exact getRefs_sub_candidates references docname x docname (List.mem_dedup.mp hx)
          · intro x hx z hz
            have hxd : x = docname := by
              rcases List.mem_cons.mp hx with he | habs
              · exact he
              · simp at habs
            right
            rw [hxd] at hz
            exact List.mem_dedup.mpr hz
          · intro hmem
            rcases List.mem_cons.mp hmem with he | habs
            · exact hd he.symm
            · simp at habs
          · unfold refMeasure
            have hf : ((refsCandidates docname references).filter
                  (fun x => decide (x ∉ [docname]))).length ≤
                (refsCandidates docname references).length :=
              List.length_filter_le _ _
            have hmul : (refsSizeS references + 1) *
                  ((refsCandidates docname references).filter
                    (fun x => decide (x ∉ [docname]))).length ≤
                (refsSizeS references + 1) *
                  ((refsCandidates docname references).length + 1) :=
              Nat.mul_le_mul_left _ (by omega)
            generalize (refsSizeS references + 1) *
              ((refsCandidates docname references).filter
                (fun x => decide (x ∉ [docname]))).length = A at hmul ⊢
            generalize (refsSizeS references + 1) *
              ((refsCandidates docname references).length + 1) = B at hmul ⊢
            omega
          · exact ⟨b, List.mem_dedup.mpr hb, hchain⟩
  · intro superWrite st
    by_cases h : is_referenced docname references <;> simp [write_doc, h]
